import Mathlib

/-!
Verification development for the flax archetype ECS core.

The change-tracking structure (`Changes`), the archetype graph
(`Archetypes.find_create`, `Archetypes.prune_arch`), the inverted index
(`ArchetypeIndex`) and the query filter combinators (`Or`, `Not`,
`ArchetypeChunks.next_chunk`) are embedded from the Rust sources.
`Slice` and the inner fields of `Archetype` are not part of the given
sources; they are modelled from the specification, as noted on each
definition.
-/

namespace Flax

/-- Modelled from the spec: `Slice` (source file not available).  A half-open
integer range over slot indices: ordered pair `start ≤ end` representing
`[start,end)`.  The `end` field is called `stop` here because `end` is a
reserved word in Lean. -/
structure Slice where
  start : Nat
  stop : Nat
deriving DecidableEq, Repr

namespace Slice

/-- Modelled from the spec: the singleton slice on one slot. -/
def single (slot : Nat) : Slice := ⟨slot, slot + 1⟩

/-- Modelled from the spec: number of slots in the range. -/
def len (a : Slice) : Nat := a.stop - a.start

/-- Modelled from the spec: a slice is empty when its length is zero. -/
def is_empty (a : Slice) : Bool := a.len == 0

/-- Modelled from the spec: slot membership in the half-open range. -/
def contains (a : Slice) (slot : Nat) : Prop := a.start ≤ slot ∧ slot < a.stop

instance (a : Slice) (slot : Nat) : Decidable (a.contains slot) :=
  inferInstanceAs (Decidable (a.start ≤ slot ∧ slot < a.stop))

/-- Modelled from the spec: comparison between slices used for ordering within
a `ChangeSet` is lexicographic on `(start, end)`. -/
def lt (a b : Slice) : Prop :=
  a.start < b.start ∨ (a.start = b.start ∧ a.stop < b.stop)

instance (a b : Slice) : Decidable (lt a b) :=
  inferInstanceAs (Decidable (a.start < b.start ∨ (a.start = b.start ∧ a.stop < b.stop)))

/-- Modelled from the spec: the non-strict lexicographic order on slices. -/
def le (a b : Slice) : Prop := lt a b ∨ a = b

instance (a b : Slice) : Decidable (le a b) :=
  inferInstanceAs (Decidable (lt a b ∨ a = b))

/-- Modelled from the spec: `union` is defined only when
`a.end ≥ b.start ∧ b.end ≥ a.start` (touching counts); otherwise `None`. -/
def union (a b : Slice) : Option Slice :=
  if b.start ≤ a.stop ∧ a.start ≤ b.stop then
    some ⟨min a.start b.start, max a.stop b.stop⟩
  else none

/-- Modelled from the spec: set difference, defined only when removing
one slice from another leaves a single contiguous slice.  Removing a slice
covering neither end of `a` but overlapping its middle would split `a`
and yields `none`. -/
def difference (a b : Slice) : Option Slice :=
  if min a.stop b.stop ≤ max a.start b.start then some a
  else if max a.start b.start = a.start then some ⟨min a.stop b.stop, a.stop⟩
  else if min a.stop b.stop = a.stop then some ⟨a.start, max a.start b.start⟩
  else none

/-- Modelled from the spec: `split_with(other)` requires `other ⊆ self` and
yields the pre-, intersecting-, and post-sub-slices; returns `None` when
`other` is not contained. -/
def split_with (a b : Slice) : Option (Slice × Slice × Slice) :=
  if a.start ≤ b.start ∧ b.stop ≤ a.stop then
    some (⟨a.start, b.start⟩, b, ⟨b.stop, a.stop⟩)
  else none

end Slice

/-- The kind of a change event, from `changes.rs`. -/
inductive ChangeKind where
  | Modified
  | Inserted
  | Removed
deriving DecidableEq, Repr

/-- A change over a slice of entities at a specific world tick, from
`changes.rs`.  Ticks are `u32` in the source; the operations below only
ever compare ticks, so they are carried as `Nat`. -/
structure Change where
  slice : Slice
  tick : Nat
  kind : ChangeKind
deriving DecidableEq, Repr

/-- The self-compacting change list from `changes.rs` (the `info` metadata
field, which no operation reads, is not carried). -/
structure Changes where
  inner : List Change
deriving DecidableEq, Repr

namespace Changes

/-- One pass of the `retain_mut` loop inside `Changes::set`: processes the
stored entries in order, carrying the retained-entry counter `i`, the
`insert_point`, and the `joined` flag exactly as the Rust closure does.
Returns the retained list, the final insert point and the joined flag. -/
def setLoop (c : Change) : List Change → Nat → Nat → Bool → (List Change × Nat × Bool)
  | [], _, ip, j => ([], ip, j)
  | v :: rest, i, ip, j =>
    -- Remove older changes which are a subset of the newer slots
    let v1 := if v.kind = c.kind ∧ v.tick < c.tick then
        match v.slice.difference c.slice with
        | some d => { v with slice := d }
        | none => v
      else v
    -- Merge the change into an already existing change (start is unchanged)
    let step2 : Change × Bool :=
      if v1.slice.start < c.slice.start ∧ v1.tick = c.tick ∧ v1.kind = c.kind then
        match v1.slice.union c.slice with
        | some u => ({ v1 with slice := u }, true)
        | none => (v1, j)
      else (v1, j)
    let v2 := step2.1
    let j2 := step2.2
    if v2.slice.is_empty then
      setLoop c rest i ip j2
    else
      let i' := i + 1
      let ip' := if v2.kind = c.kind ∧ Slice.lt v2.slice c.slice then i' else ip
      let r := setLoop c rest i' ip' j2
      (v2 :: r.1, r.2)

/-- List insertion at an index (`Vec::insert`); appends when the index is
past the end (the source never reaches that case). -/
def insertAt : Nat → Change → List Change → List Change
  | 0, c, l => c :: l
  | _ + 1, c, [] => [c]
  | n + 1, c, x :: xs => x :: insertAt n c xs

/-- `Changes::set` from `changes.rs`: one pass over the list trimming stale
same-kind entries, merging same-tick touching entries, dropping emptied
entries, then inserting the change at the computed point unless it was
absorbed. -/
def set (cs : Changes) (c : Change) : Changes :=
  let r := setLoop c cs.inner 0 0 false
  if r.2.2 then ⟨r.1⟩ else ⟨insertAt r.2.1 c r.1⟩

/-- The loop body of `Changes::remove` from `changes.rs`: splits each entry
at the singleton slice, pushing left parts immediately, buffering right
parts, and flushing the buffer before any upcoming entry whose slice is
greater than the buffered one.  Arguments: remaining entries, output list,
right buffer, emitted removals. -/
def removeLoop (slot : Nat) : List Change → List Change → List Change → List Change →
    (List Change × List Change)
  | [], res, right, rem => (res ++ right, rem)
  | v :: rest, res, right, rem =>
    match v.slice.split_with (Slice.single slot) with
    | some (l, _, r) =>
      let doFlush : Bool := !l.is_empty &&
        (match right.head? with
         | some rc => decide (Slice.lt rc.slice l)
         | none => false)
      let res1 := if doFlush then res ++ right else res
      let right1 := if doFlush then [] else right
      let res2 := if l.is_empty then res1 else res1 ++ [⟨l, v.tick, v.kind⟩]
      let right2 := if r.is_empty then right1 else right1 ++ [⟨r, v.tick, v.kind⟩]
      removeLoop slot rest res2 right2 (rem ++ [⟨Slice.single slot, v.tick, v.kind⟩])
    | none =>
      let doFlush : Bool :=
        match right.head? with
        | some rc => decide (Slice.lt rc.slice v.slice)
        | none => false
      let res1 := if doFlush then res ++ right else res
      let right1 := if doFlush then [] else right
      removeLoop slot rest (res1 ++ [v]) right1 rem

/-- `Changes::remove` from `changes.rs`: removes the singleton on `slot`
from every stored slice, returning the rewritten list and the removed
changes. -/
def remove (cs : Changes) (slot : Nat) : Changes × List Change :=
  let r := removeLoop slot cs.inner [] [] []
  (⟨r.1⟩, r.2)

/-- `Changes::migrate_to` from `changes.rs`: removes `src` from `self`,
rewrites each removed change to the singleton on `dst` and sets it on
`other`.  Returns the updated pair `(self, other)`. -/
def migrate_to (cs other : Changes) (src dst : Nat) : Changes × Changes :=
  let r := cs.remove src
  (r.1, r.2.foldl (fun o v => o.set { v with slice := Slice.single dst }) other)

/-- `Changes::swap_out` from `changes.rs`: removes both slots, asserts every
change obtained for `dst` is the singleton on `dst`
(`assert_eq!(v.slice, Slice::single(dst))`), rewrites those to the
singleton on `src` and reinserts them, returning the original `src`
changes.  `none` models the assertion firing. -/
def swap_out (cs : Changes) (src dst : Nat) : Option (Changes × List Change) :=
  let r1 := cs.remove src
  let r2 := r1.1.remove dst
  if r2.2.all (fun v => v.slice == Slice.single dst) then
    some (r2.2.foldl (fun s v => s.set { v with slice := Slice.single src }) r2.1, r1.2)
  else none

/-- The pieces a single stored change contributes to the rewritten list of
`Changes::remove`: the non-empty left and right parts when the entry is
split at the singleton, or the entry untouched. -/
def excise (slot : Nat) (v : Change) : List Change :=
  match v.slice.split_with (Slice.single slot) with
  | some (l, _, r) =>
    (if l.is_empty then [] else [⟨l, v.tick, v.kind⟩]) ++
      (if r.is_empty then [] else [⟨r, v.tick, v.kind⟩])
  | none => [v]

/-- The slices of all stored changes of one kind, in storage order
(as collected by `Changes::assert_ordered`). -/
def kindSlices (l : List Change) (k : ChangeKind) : List Slice :=
  (l.filter (fun v => v.kind == k)).map (fun v => v.slice)

/-- The `is_sorted` check used by the debug assertion `Changes::assert_ordered`
in `changes.rs`: no adjacent pair is strictly descending in the
lexicographic `(start, end)` slice order. -/
def slicesSortedB : List Slice → Bool
  | [] => true
  | [_] => true
  | a :: b :: r => !(decide (Slice.lt b a)) && slicesSortedB (b :: r)

/-- The debug-mode invariant checked by `Changes::assert_ordered` after every
mutation: for each kind, the slices are sorted. -/
def assertOrderedB (l : List Change) : Bool :=
  slicesSortedB (kindSlices l ChangeKind.Modified) &&
  slicesSortedB (kindSlices l ChangeKind.Inserted) &&
  slicesSortedB (kindSlices l ChangeKind.Removed)

/-- Adjacent starts strictly ascending. -/
def strictAscB : List Slice → Bool
  | [] => true
  | [_] => true
  | a :: b :: r => decide (a.start < b.start) && strictAscB (b :: r)

/-- Two slices are disjoint as slot sets. -/
def slDisjoint (a b : Slice) : Bool := decide (a.stop ≤ b.start ∨ b.stop ≤ a.start)

/-- All pairs of slices in the list are disjoint. -/
def pairwiseDisjointB : List Slice → Bool
  | [] => true
  | x :: xs => xs.all (slDisjoint x) && pairwiseDisjointB xs

/-- The invariant claimed by the specification for a change list: within each
kind, slices are strictly ascending by start, pairwise non-overlapping and
non-empty. -/
def changesInvariantB (l : List Change) : Bool :=
  [ChangeKind.Modified, ChangeKind.Inserted, ChangeKind.Removed].all fun k =>
    let s := kindSlices l k
    strictAscB s && pairwiseDisjointB s && s.all (fun x => !x.is_empty)

end Changes

/-! ## Association-list helpers

The Rust source keeps its maps in `BTreeMap`s; all the claims below only
consult them through lookup, insert and remove, which an association list
models. -/

/-- First-match lookup in an association list. -/
def alookup {α β : Type} [DecidableEq α] : List (α × β) → α → Option β
  | [], _ => none
  | (k, v) :: r, x => if k = x then some v else alookup r x

/-- Remove every pair with the given key. -/
def aerase {α β : Type} [DecidableEq α] (l : List (α × β)) (x : α) : List (α × β) :=
  l.filter (fun p => decide (p.1 ≠ x))

/-- Insert or overwrite the value at a key (`BTreeMap::insert`). -/
def aupdate {α β : Type} [DecidableEq α] (l : List (α × β)) (x : α) (v : β) : List (α × β) :=
  (x, v) :: aerase l x

/-! ## Component keys and descriptors -/

/-- The designated wildcard entity id (`component::dummy()` in the source). -/
def dummy : Nat := 0

/-- A component key: a pair `(id, object?)`; a present `object` makes the
component a relation instance, from `archetypes.rs` / the data model. -/
structure ComponentKey where
  id : Nat
  object : Option Nat
deriving DecidableEq, Repr

/-- `ComponentKey::is_relation`: the key is a relation when `object` is
present. -/
def ComponentKey.is_relation (k : ComponentKey) : Bool := k.object.isSome

/-- A component descriptor: key plus metadata.  Of the metadata only the
`Exclusive` meta-flag (`head.meta_ref().has(exclusive())`) is consulted by
the embedded operations, so it is the only part carried. -/
structure ComponentDesc where
  key : ComponentKey
  exclusive : Bool
deriving DecidableEq, Repr

/-- `ComponentDesc::is_relation`, delegating to the key. -/
def ComponentDesc.is_relation (d : ComponentDesc) : Bool := d.key.is_relation

/-- The component set of the child archetype built inside
`Archetypes::find_create` when the `outgoing[head.key]` edge is missing:
the parent's descriptors chained with `head`, filtered by
`v.key.id != head.key.id || v.key == head.key` when `head` is a relation
carrying the Exclusive flag. -/
def childComponents (parent : List ComponentDesc) (head : ComponentDesc) : List ComponentDesc :=
  let arch_components := parent ++ [head]
  if head.is_relation && head.exclusive then
    arch_components.filter (fun v => v.key.id != head.key.id || v.key == head.key)
  else
    arch_components

/-! ## Archetype and archetype store -/

/-- Modelled from the spec: the `Archetype` fields the embedded operations
touch (its own source file is not available).  `components` is the ordered
descriptor list (cells are parallel, so a cell index is a position in this
list); `entities` is the number of rows; `outgoing`/`incoming` are the
graph-edge maps keyed by component. -/
structure Archetype where
  components : List ComponentDesc
  entities : Nat
  outgoing : List (ComponentKey × Nat)
  incoming : List (ComponentKey × Nat)
deriving DecidableEq, Repr

/-- The `(component_key, cell_index)` pairs iterated by
`ArchetypeIndex::register` and `unregister` (`arch.components()`). -/
def Archetype.componentPairs (a : Archetype) : List (ComponentKey × Nat) :=
  a.components.enum.map (fun p => (p.2.key, p.1))

/-- `Archetype::is_empty`: no entity rows. -/
def Archetype.is_empty (a : Archetype) : Bool := a.entities == 0

/-! ## ArchetypeIndex -/

/-- A record of the inverted index, from `archetypes.rs`. -/
structure ArchetypeRecord where
  cell_index : Nat
  relation_count : Nat
deriving DecidableEq, Repr

/-- The inverted index `ComponentKey → {ArchetypeId → ArchetypeRecord}`,
from `archetypes.rs`. -/
structure ArchetypeIndex where
  components : List (ComponentKey × List (Nat × ArchetypeRecord))
deriving DecidableEq, Repr

/-- `ArchetypeIndex::register_relation`: bump (creating at zero if absent)
the relation count of the record for `(key, arch_id)`. -/
def registerRelation (idx : ArchetypeIndex) (arch_id : Nat) (key : ComponentKey)
    (cell_index : Nat) : ArchetypeIndex :=
  let bucket := (alookup idx.components key).getD []
  let rec0 := (alookup bucket arch_id).getD ⟨cell_index, 0⟩
  ⟨aupdate idx.components key
    (aupdate bucket arch_id ⟨rec0.cell_index, rec0.relation_count + 1⟩)⟩

/-- `ArchetypeIndex::unregister_relation`: decrement the relation count of
the record for `(key, arch_id)`, removing the record at zero.  `none`
models the `unwrap` panics on a missing bucket or record and the `usize`
underflow of decrementing a zero count. -/
def unregisterRelation (idx : ArchetypeIndex) (arch_id : Nat) (key : ComponentKey) :
    Option ArchetypeIndex :=
  (alookup idx.components key).bind (fun bucket =>
    (alookup bucket arch_id).bind (fun rec0 =>
      if rec0.relation_count = 0 then none
      else if rec0.relation_count = 1 then
        some ⟨aupdate idx.components key (aerase bucket arch_id)⟩
      else
        some ⟨aupdate idx.components key
          (aupdate bucket arch_id ⟨rec0.cell_index, rec0.relation_count - 1⟩)⟩))

/-- Insert (overwriting) the record for `(key, arch_id)` — the
`components.entry(key).or_default().insert(arch_id, record)` pattern of
`ArchetypeIndex::register`. -/
def directInsert (idx : ArchetypeIndex) (arch_id : Nat) (key : ComponentKey)
    (r : ArchetypeRecord) : ArchetypeIndex :=
  ⟨aupdate idx.components key
    (aupdate ((alookup idx.components key).getD []) arch_id r)⟩

/-- One component of `ArchetypeIndex::register`: for a relation key,
register the two wildcard records `(dummy, object)` and `(id, dummy)`,
then insert the direct record with `relation_count = 0` (overwriting). -/
def registerStep (arch_id : Nat) (acc : ArchetypeIndex) (p : ComponentKey × Nat) :
    ArchetypeIndex :=
  let acc1 := if p.1.is_relation then
      registerRelation
        (registerRelation acc arch_id ⟨dummy, p.1.object⟩ p.2)
        arch_id ⟨p.1.id, some dummy⟩ p.2
    else acc
  directInsert acc1 arch_id p.1 ⟨p.2, 0⟩

/-- `ArchetypeIndex::register` over the archetype's `(key, cell_index)`
pairs. -/
def ArchetypeIndex.register (idx : ArchetypeIndex) (arch_id : Nat)
    (comps : List (ComponentKey × Nat)) : ArchetypeIndex :=
  comps.foldl (registerStep arch_id) idx

/-- One component of `ArchetypeIndex::unregister`: for a relation key,
unregister the two wildcard records, then remove the direct record,
dropping the bucket when it empties.  `none` models the `unwrap` panic on
a missing direct bucket and the panics of `unregister_relation`. -/
def unregisterStep (arch_id : Nat) (acc : ArchetypeIndex) (p : ComponentKey × Nat) :
    Option ArchetypeIndex :=
  (if p.1.is_relation then
      (unregisterRelation acc arch_id ⟨dummy, p.1.object⟩).bind
        (fun a => unregisterRelation a arch_id ⟨p.1.id, some dummy⟩)
    else some acc).bind (fun acc1 =>
    (alookup acc1.components p.1).bind (fun bucket =>
      if (aerase bucket arch_id).isEmpty then
        some (⟨aerase acc1.components p.1⟩ : ArchetypeIndex)
      else
        some (⟨aupdate acc1.components p.1 (aerase bucket arch_id)⟩ : ArchetypeIndex)))

/-- `ArchetypeIndex::unregister` over the archetype's `(key, cell_index)`
pairs. -/
def ArchetypeIndex.unregister (idx : ArchetypeIndex) (arch_id : Nat)
    (comps : List (ComponentKey × Nat)) : Option ArchetypeIndex :=
  comps.foldlM (unregisterStep arch_id) idx

/-! ## Archetypes (graph owner) -/

/-- The archetype store from `archetypes.rs`: root and reserved ids, the
wrapping `u32` generation counter, the id allocator of the `EntityStore`,
the archetypes by id, and the index.  Global subscribers are not carried:
they only feed the `handlers` list of new archetypes, which no claim
mentions. -/
structure Archetypes where
  root : Nat
  reserved : Nat
  gen : Nat
  next_id : Nat
  inner : List (Nat × Archetype)
  index : ArchetypeIndex
deriving DecidableEq, Repr

/-- The loop of `Archetypes::find_create`: walk from the cursor following
`outgoing[head.key]`, creating missing children (with the exclusive-relation
filter, fresh id, bidirectional edges, index registration and a `gen` bump).
`none` models the `expect("Invalid archetype id")` panic. -/
def Archetypes.findCreateGo (s : Archetypes) (cursor : Nat) :
    List ComponentDesc → Option (Nat × Archetypes)
  | [] => some (cursor, s)
  | head :: rest =>
    match alookup s.inner cursor with
    | none => none
    | some cur =>
      match alookup cur.outgoing head.key with
      | some id => Archetypes.findCreateGo s id rest
      | none =>
        let newArch : Archetype :=
          { components := childComponents cur.components head
            entities := 0
            outgoing := []
            incoming := [(head.key, cursor)] }
        let new_id := s.next_id
        let cur' := { cur with outgoing := aupdate cur.outgoing head.key new_id }
        let s' : Archetypes :=
          { s with
            gen := (s.gen + 1) % 4294967296
            next_id := s.next_id + 1
            inner := aupdate (aupdate s.inner cursor cur') new_id newArch
            index := ArchetypeIndex.register s.index new_id newArch.componentPairs }
        Archetypes.findCreateGo s' new_id rest

/-- `Archetypes::find_create`: walk from the root and return the final
cursor together with its archetype (`none` models the terminal
`get_mut(cursor).unwrap()` panic). -/
def Archetypes.find_create (s : Archetypes) (comps : List ComponentDesc) :
    Option (Nat × Archetype × Archetypes) :=
  match Archetypes.findCreateGo s s.root comps with
  | none => none
  | some (c, s') =>
    match alookup s'.inner c with
    | none => none
    | some a => some (c, a, s')

mutual

/-- `Archetypes::prune_arch`, with a recursion fuel (the Rust recursion is
bounded by the store size).  No-ops on root/reserved/non-empty/has-outgoing;
otherwise despawns the archetype from the store, unregisters it from the
index, removes the link from each incoming neighbour and recursively prunes
it, then bumps `gen`.  `none` models the panics of `get`/`get_mut`/
`unregister` and exhausted fuel. -/
def Archetypes.prune_arch (fuel : Nat) (s : Archetypes) (arch_id : Nat) :
    Option (Bool × Archetypes) :=
  match fuel with
  | 0 => none
  | fuel + 1 =>
    match alookup s.inner arch_id with
    | none => none
    | some arch =>
      if arch_id = s.root ∨ arch_id = s.reserved ∨ arch.entities ≠ 0 ∨ arch.outgoing ≠ [] then
        some (false, s)
      else
        match ArchetypeIndex.unregister s.index arch_id arch.componentPairs with
        | none => none
        | some idx =>
          match Archetypes.pruneIncoming fuel
              { s with inner := aerase s.inner arch_id, index := idx } arch.incoming with
          | none => none
          | some s2 => some (true, { s2 with gen := (s2.gen + 1) % 4294967296 })
termination_by (fuel, 0)

/-- The `for (&key, &dst_id) in &arch.incoming` loop of `prune_arch`:
`remove_link` (modelled from the spec: drop the parent's outgoing edge for
that key; the `Archetype` source is not available) then recurse. -/
def Archetypes.pruneIncoming (fuel : Nat) (s : Archetypes)
    (l : List (ComponentKey × Nat)) : Option Archetypes :=
  match l with
  | [] => some s
  | (key, dst_id) :: rest =>
    match alookup s.inner dst_id with
    | none => none
    | some dst =>
      match Archetypes.prune_arch fuel
          { s with inner :=
              aupdate s.inner dst_id { dst with outgoing := aerase dst.outgoing key } }
          dst_id with
      | none => none
      | some (_, s2) => Archetypes.pruneIncoming fuel s2 rest
termination_by (fuel, l.length + 1)

end

/-! ## Filter combinators (`filter/set.rs`, `query/iter.rs`) -/

namespace Or

/-- `PreparedFetch::filter_slots` for `Or` from the `tuple_impl!` macro in
`set.rs`: the minimum of the branch results in the lexicographic slice
order (`unwrap_or_default` only matters for zero branches). -/
def filter_slots (results : List Slice) : Slice :=
  match results with
  | [] => ⟨0, 0⟩
  | x :: xs => xs.foldl (fun m r => if Slice.lt r m then r else m) x

/-- `set_visited` for `Or`: forwarded to every branch.  Each branch is
modelled by the log of slices it has been given. -/
def set_visited (branches : List (List Slice)) (slots : Slice) : List (List Slice) :=
  branches.map (fun v => slots :: v)

end Or

namespace Not

/-- `PreparedFetch::filter_slots` for `Not<Option<F>>` from `set.rs`:
`slots.difference(inner.filter_slots(slots)).unwrap()` when the inner fetch
prepared, `slots` otherwise.  `none` models the `unwrap` panic. -/
def filter_slots (inner : Option (Slice → Slice)) (slots : Slice) : Option Slice :=
  match inner with
  | some f => slots.difference (f slots)
  | none => some slots

end Not

namespace ArchetypeChunks

/-- `ArchetypeChunks::next_chunk` from `iter.rs`: filter the remaining
slots, and split them at the returned chunk.  The outer `none` models the
`expect` panic when the filter result is not a sub-slice; `some none` is an
exhausted iterator; `some (some (m, r))` yields chunk `m` with remaining
slots `r`. -/
def next_chunk (filter : Slice → Slice) (slots : Slice) :
    Option (Option (Slice × Slice)) :=
  if slots.is_empty then some none
  else if (filter slots).is_empty then some none
  else
    match slots.split_with (filter slots) with
    | none => none
    | some (_, m, r) => some (some (m, r))

end ArchetypeChunks

/-- The slot-range filtering contract of the spec: the returned slice is a
sub-slice of the argument, or empty. -/
def FilterContract (r s : Slice) : Prop :=
  r.len = 0 ∨ (s.start ≤ r.start ∧ r.stop ≤ s.stop)

/-! ## Index-invariant vocabulary (claim C7) -/

/-- Look up the record of `(key, archetype)` in the index. -/
def idxLookup (idx : ArchetypeIndex) (k : ComponentKey) (a : Nat) : Option ArchetypeRecord :=
  (alookup idx.components k).bind (fun b => alookup b a)

/-- Number of relation components of an archetype targeting `obj` (backers
of the wildcard `(dummy, Some obj)`). -/
def wcObj (comps : List (ComponentKey × Nat)) (obj : Nat) : Nat :=
  (comps.filter (fun p => p.1.object == some obj)).length

/-- Number of relation components of an archetype with relation id `i`
(backers of the wildcard `(i, Some dummy)`). -/
def wcId (comps : List (ComponentKey × Nat)) (i : Nat) : Nat :=
  (comps.filter (fun p => p.1.id == i && p.1.object.isSome)).length

/-- The relation count stored in an optional record (zero when absent). -/
def optCount : Option ArchetypeRecord → Nat
  | some r => r.relation_count
  | none => 0

/-- A wildcard record agrees with its backer count: present exactly when the
count is positive, and storing that count. -/
def wcClause (o : Option ArchetypeRecord) (n : Nat) : Prop :=
  (o.isSome ↔ 0 < n) ∧ optCount o = n

/-- The per-archetype index state after a registration: direct entries exist
exactly for the archetype's component keys (with zero relation count), the
two wildcard families carry their backer counts, and no junk key is
populated. -/
def RegState (idx : ArchetypeIndex) (a : Nat) (comps : List (ComponentKey × Nat)) : Prop :=
  (∀ k : ComponentKey, k.id ≠ dummy → k.object ≠ some dummy →
    (((idxLookup idx k a).isSome ↔ k ∈ comps.map Prod.fst) ∧
      ∀ r, idxLookup idx k a = some r → r.relation_count = 0))
  ∧ (∀ obj : Nat, obj ≠ dummy → wcClause (idxLookup idx ⟨dummy, some obj⟩ a) (wcObj comps obj))
  ∧ (∀ i : Nat, i ≠ dummy → wcClause (idxLookup idx ⟨i, some dummy⟩ a) (wcId comps i))
  ∧ idxLookup idx ⟨dummy, some dummy⟩ a = none
  ∧ idxLookup idx ⟨dummy, none⟩ a = none

/-- An archetype's component keys are clean: no dummy relation id, no dummy
object (archetypes never contain wildcard keys). -/
def CleanComps (comps : List (ComponentKey × Nat)) : Prop :=
  ∀ p ∈ comps, p.1.id ≠ dummy ∧ p.1.object ≠ some dummy

/-- What `prune_arch` can do to the store: archetypes are only removed, and
an archetype's outgoing map only loses entries.  Used to carry facts
established mid-prune to the final state. -/
def StoreShrinks (s s' : Archetypes) : Prop :=
  (∀ j : Nat, alookup s.inner j = none → alookup s'.inner j = none)
  ∧ (∀ (j : Nat) (a a' : Archetype) (k : ComponentKey),
      alookup s.inner j = some a → alookup s'.inner j = some a' →
      alookup a.outgoing k = none → alookup a'.outgoing k = none)

/-- A register or unregister call on the index. -/
inductive IndexOp where
  | reg (a : Nat)
  | unreg (a : Nat)

/-- Apply one index operation; the archetype family `A` gives each
archetype id its component pairs. -/
def applyOp (A : Nat → List (ComponentKey × Nat)) (st : ArchetypeIndex × List Nat) :
    IndexOp → Option (ArchetypeIndex × List Nat)
  | .reg a => some (ArchetypeIndex.register st.1 a (A a), a :: st.2)
  | .unreg a =>
    match ArchetypeIndex.unregister st.1 a (A a) with
    | some idx => some (idx, st.2.erase a)
    | none => none

/-- Apply a sequence of index operations. -/
def applyOps (A : Nat → List (ComponentKey × Nat)) (st : ArchetypeIndex × List Nat)
    (ops : List IndexOp) : Option (ArchetypeIndex × List Nat) :=
  ops.foldlM (applyOp A) st

/-- A sequence is valid when every register is of a currently unregistered
archetype and every unregister matches a prior register. -/
def ValidOps : List Nat → List IndexOp → Prop
  | _, [] => True
  | S, .reg a :: rest => a ∉ S ∧ ValidOps (a :: S) rest
  | S, .unreg a :: rest => a ∈ S ∧ ValidOps (S.erase a) rest

/-! ## Basic lemmas on slices -/

theorem Slice.contains_iff (a : Slice) (s : Nat) :
    a.contains s ↔ a.start ≤ s ∧ s + 1 ≤ a.stop := by
  unfold Slice.contains; omega

theorem Slice.split_with_single (a : Slice) (s : Nat) :
    a.split_with (Slice.single s) =
      if a.start ≤ s ∧ s + 1 ≤ a.stop then
        some (⟨a.start, s⟩, ⟨s, s + 1⟩, ⟨s + 1, a.stop⟩)
      else none := by
  simp only [Slice.split_with, Slice.single]

theorem Slice.split_with_single_of_contains (a : Slice) (s : Nat)
    (h : a.contains s) :
    a.split_with (Slice.single s) = some (⟨a.start, s⟩, ⟨s, s + 1⟩, ⟨s + 1, a.stop⟩) := by
  rw [Slice.split_with_single, if_pos ((Slice.contains_iff a s).mp h)]

theorem Slice.split_with_single_of_not_contains (a : Slice) (s : Nat)
    (h : ¬ a.contains s) :
    a.split_with (Slice.single s) = none := by
  rw [Slice.split_with_single, if_neg (fun hc => h ((Slice.contains_iff a s).mpr hc))]

/-! ## Claim theorems: the change list -/

/-- C2: starting from an empty `ChangeSet`, the five `set` calls of the
merge-and-overlap scenario leave exactly
`[Modified([0,89),4), Modified([89,92),2)]`. -/
theorem changes_set_merge_scenario :
    (((((⟨[]⟩ : Changes).set ⟨⟨0, 5⟩, 1, .Modified⟩).set
        ⟨⟨70, 92⟩, 2, .Modified⟩).set ⟨⟨3, 5⟩, 3, .Modified⟩).set
        ⟨⟨4, 14⟩, 3, .Modified⟩).set ⟨⟨0, 89⟩, 4, .Modified⟩ =
      ⟨[⟨⟨0, 89⟩, 4, .Modified⟩, ⟨⟨89, 92⟩, 2, .Modified⟩]⟩ := by
  decide

/-- C1: the sequence `set(Modified,[0,10),1); set(Modified,[2,8),2);
set(Modified,[0,6),3)` — ticks strictly increasing — produces the stored
list `[Modified([0,6),3), Modified([6,10),1), Modified([6,8),2)]`, which
violates the claimed invariant (and already after the second call the
stored slices overlap); the final list even fails the source's own debug
assertion `assert_ordered`. -/
theorem changes_set_invariant_violation :
    ((((⟨[]⟩ : Changes).set ⟨⟨0, 10⟩, 1, .Modified⟩).set
        ⟨⟨2, 8⟩, 2, .Modified⟩).set ⟨⟨0, 6⟩, 3, .Modified⟩ =
      ⟨[⟨⟨0, 6⟩, 3, .Modified⟩, ⟨⟨6, 10⟩, 1, .Modified⟩, ⟨⟨6, 8⟩, 2, .Modified⟩]⟩)
    ∧ Changes.assertOrderedB
        [⟨⟨0, 6⟩, 3, .Modified⟩, ⟨⟨6, 10⟩, 1, .Modified⟩, ⟨⟨6, 8⟩, 2, .Modified⟩] = false
    ∧ Changes.changesInvariantB
        [⟨⟨0, 6⟩, 3, .Modified⟩, ⟨⟨6, 10⟩, 1, .Modified⟩, ⟨⟨6, 8⟩, 2, .Modified⟩] = false
    ∧ (((⟨[]⟩ : Changes).set ⟨⟨0, 10⟩, 1, .Modified⟩).set ⟨⟨2, 8⟩, 2, .Modified⟩ =
        ⟨[⟨⟨0, 10⟩, 1, .Modified⟩, ⟨⟨2, 8⟩, 2, .Modified⟩]⟩)
    ∧ Changes.changesInvariantB
        [⟨⟨0, 10⟩, 1, .Modified⟩, ⟨⟨2, 8⟩, 2, .Modified⟩] = false
    ∧ Changes.assertOrderedB
        [⟨⟨0, 10⟩, 1, .Modified⟩, ⟨⟨2, 8⟩, 2, .Modified⟩] = true := by
  decide

/-! ## Characterisation of `Changes::remove` -/

theorem removeLoop_removed (slot : Nat) (l : List Change) :
    ∀ res right rem : List Change,
      (Changes.removeLoop slot l res right rem).2 =
        rem ++ (l.filter (fun v => decide (v.slice.contains slot))).map
          (fun v => ⟨Slice.single slot, v.tick, v.kind⟩) := by
  induction l with
  | nil => intro res right rem; simp [Changes.removeLoop]
  | cons v rest ih =>
    intro res right rem
    by_cases h : v.slice.contains slot
    · rw [Changes.removeLoop, Slice.split_with_single_of_contains v.slice slot h]
      simp only []
      rw [ih]
      simp [h]
    · rw [Changes.removeLoop, Slice.split_with_single_of_not_contains v.slice slot h]
      simp only []
      rw [ih]
      simp [h]

theorem Slice.contains_def (a : Slice) (s : Nat) :
    a.contains s ↔ a.start ≤ s ∧ s < a.stop := Iff.rfl

theorem removeLoop_not_contains (slot : Nat) (l : List Change) :
    ∀ res right rem : List Change,
      (∀ v ∈ res, ¬ v.slice.contains slot) →
      (∀ v ∈ right, ¬ v.slice.contains slot) →
      ∀ x ∈ (Changes.removeLoop slot l res right rem).1, ¬ x.slice.contains slot := by
  induction l with
  | nil =>
    intro res right rem hres hright x hx
    simp only [Changes.removeLoop, List.mem_append] at hx
    rcases hx with hx | hx
    · exact hres x hx
    · exact hright x hx
  | cons v rest ih =>
    intro res right rem hres hright
    by_cases h : v.slice.contains slot
    · rw [Changes.removeLoop, Slice.split_with_single_of_contains v.slice slot h]
      simp only []
      apply ih
      · -- res2: possibly flushed res ++ right, then the left piece
        intro x hx
        have hl : ¬ (⟨v.slice.start, slot⟩ : Slice).contains slot := by
          simp [Slice.contains_def]
        have hdisj : x ∈ res ∨ x ∈ right ∨
            x = ⟨⟨v.slice.start, slot⟩, v.tick, v.kind⟩ := by
          split_ifs at hx <;>
            (try simp only [List.mem_append, List.mem_singleton] at hx) <;> tauto
        rcases hdisj with hx' | hx' | hx'
        · exact hres x hx'
        · exact hright x hx'
        · subst hx'; exact hl
      · -- right2: possibly emptied buffer, then the right piece
        intro x hx
        have hr : ¬ (⟨slot + 1, v.slice.stop⟩ : Slice).contains slot := by
          simp [Slice.contains_def]
        have hdisj : x ∈ right ∨
            x = ⟨⟨slot + 1, v.slice.stop⟩, v.tick, v.kind⟩ := by
          split_ifs at hx <;>
            (try simp only [List.mem_append, List.mem_singleton, List.not_mem_nil,
              false_or, or_false, List.nil_append] at hx) <;> tauto
        rcases hdisj with hx' | hx'
        · exact hright x hx'
        · subst hx'; exact hr
    · rw [Changes.removeLoop, Slice.split_with_single_of_not_contains v.slice slot h]
      simp only []
      apply ih
      · intro x hx
        have hdisj : x ∈ res ∨ x ∈ right ∨ x = v := by
          split_ifs at hx <;>
            (try simp only [List.mem_append, List.mem_singleton] at hx) <;> tauto
        rcases hdisj with hx' | hx' | hx'
        · exact hres x hx'
        · exact hright x hx'
        · subst hx'; exact h
      · intro x hx
        have hdisj : x ∈ right := by
          split_ifs at hx <;> (try simp only [List.not_mem_nil] at hx) <;> tauto
        exact hright x hdisj

theorem removeLoop_mem (slot : Nat) (l : List Change) :
    ∀ res right rem : List Change, ∀ x : Change,
      (x ∈ (Changes.removeLoop slot l res right rem).1 ↔
        x ∈ res ∨ x ∈ right ∨ x ∈ (l.map (Changes.excise slot)).flatten) := by
  induction l with
  | nil =>
    intro res right rem x
    simp [Changes.removeLoop]
  | cons v rest ih =>
    intro res right rem x
    rcases hs : v.slice.split_with (Slice.single slot) with _ | ⟨lp, mp, rp⟩
    · rw [Changes.removeLoop, hs]
      simp only []
      rw [ih]
      have hev : Changes.excise slot v = [v] := by simp [Changes.excise, hs]
      simp only [List.map_cons, List.flatten_cons, hev]
      split_ifs <;> simp [List.mem_append] <;> tauto
    · rw [Changes.removeLoop, hs]
      simp only []
      rw [ih]
      have hev : Changes.excise slot v =
          (if lp.is_empty then [] else [⟨lp, v.tick, v.kind⟩]) ++
            (if rp.is_empty then [] else [⟨rp, v.tick, v.kind⟩]) := by
        simp [Changes.excise, hs]
      simp only [List.map_cons, List.flatten_cons, hev]
      split_ifs <;> simp [List.mem_append] <;> tauto

theorem excise_cover (slot : Nat) (v0 : Change) (sl t : Nat) (k : ChangeKind)
    (hne : sl ≠ slot) :
    (∃ v ∈ Changes.excise slot v0, v.slice.contains sl ∧ v.tick = t ∧ v.kind = k) ↔
      (v0.slice.contains sl ∧ v0.tick = t ∧ v0.kind = k) := by
  by_cases h : v0.slice.contains slot
  · rw [Changes.excise, Slice.split_with_single_of_contains v0.slice slot h]
    simp only []
    have hc := (Slice.contains_iff v0.slice slot).mp h
    constructor
    · rintro ⟨v, hv, hcont, ht, hk⟩
      have hdisj : v = ⟨⟨v0.slice.start, slot⟩, v0.tick, v0.kind⟩ ∨
          v = ⟨⟨slot + 1, v0.slice.stop⟩, v0.tick, v0.kind⟩ := by
        split_ifs at hv <;>
          (try simp only [List.mem_append, List.mem_singleton, List.not_mem_nil,
            false_or, or_false, List.nil_append, List.append_nil] at hv) <;> tauto
      rcases hdisj with hv' | hv' <;>
        · subst hv'
          refine ⟨?_, ht, hk⟩
          rw [Slice.contains_def] at hcont ⊢
          simp only at hcont
          omega
    · rintro ⟨hcont, ht, hk⟩
      have hcont' := (Slice.contains_iff v0.slice sl).mp hcont
      rcases Nat.lt_or_ge sl slot with hlt | hge
      · -- sl is in the left piece
        refine ⟨⟨⟨v0.slice.start, slot⟩, v0.tick, v0.kind⟩, ?_, ?_, ht, hk⟩
        · have : (⟨v0.slice.start, slot⟩ : Slice).is_empty = false := by
            simp [Slice.is_empty, Slice.len]; omega
          simp [this]
        · simp only [Slice.contains]; omega
      · -- sl is in the right piece
        have hgt : slot + 1 ≤ sl := by omega
        refine ⟨⟨⟨slot + 1, v0.slice.stop⟩, v0.tick, v0.kind⟩, ?_, ?_, ht, hk⟩
        · have : (⟨slot + 1, v0.slice.stop⟩ : Slice).is_empty = false := by
            simp [Slice.is_empty, Slice.len]; omega
          simp [this]
        · simp only [Slice.contains]; omega
  · rw [Changes.excise, Slice.split_with_single_of_not_contains v0.slice slot h]
    simp

/-! ## Claim theorems: remove, swap_out, migrate_to -/

/-- C3: `remove(slot)` returns exactly one `Change` per stored change whose
slice contains `slot` — the singleton on `slot` with the original tick and
kind — after the call no remaining stored slice contains `slot`, and
consequently the `assert_eq!(v.slice, Slice::single(dst))` inside
`swap_out` never fires. -/
theorem changes_remove_singletons (cs : Changes) (slot : Nat) :
    ((cs.remove slot).2 =
        (cs.inner.filter (fun v => decide (v.slice.contains slot))).map
          (fun v => ⟨Slice.single slot, v.tick, v.kind⟩))
    ∧ (∀ v ∈ (cs.remove slot).1.inner, ¬ v.slice.contains slot)
    ∧ (∀ src dst : Nat, (cs.swap_out src dst).isSome = true) := by
  refine ⟨?_, ?_, ?_⟩
  · simpa using removeLoop_removed slot cs.inner [] [] []
  · intro v hv
    exact removeLoop_not_contains slot cs.inner [] [] [] (by simp) (by simp) v hv
  · intro src dst
    rw [Changes.swap_out]
    have hall : ∀ x ∈ (((cs.remove src).1).remove dst).2,
        (x.slice == Slice.single dst) = true := by
      intro x hx
      have h := removeLoop_removed dst ((cs.remove src).1).inner [] [] []
      have hx' : x ∈ ((((cs.remove src).1).inner.filter
          (fun v => decide (v.slice.contains dst))).map
            (fun v => (⟨Slice.single dst, v.tick, v.kind⟩ : Change))) := by
        have : (((cs.remove src).1).remove dst).2 =
            (((cs.remove src).1).inner.filter
              (fun v => decide (v.slice.contains dst))).map
                (fun v => (⟨Slice.single dst, v.tick, v.kind⟩ : Change)) := by
          simpa [Changes.remove] using h
        rw [this] at hx
        exact hx
      rcases List.mem_map.mp hx' with ⟨w, _, hw⟩
      subst hw
      simp
    rw [List.all_eq_true.mpr hall]
    simp

/-- A convenient witness for C3 at a concrete change set. -/
theorem changes_remove_singletons_witness :
    (Changes.swap_out ⟨[⟨⟨0, 3⟩, 1, .Modified⟩]⟩ 5 7).isSome = true :=
  (changes_remove_singletons ⟨[⟨⟨0, 3⟩, 1, .Modified⟩]⟩ 0).2.2 5 7

/-- C4: `migrate_to(other, src, dst)` leaves the source exactly as
`remove(src)` does — no remaining slice contains `src`, and the coverage of
every other slot with its tick and kind is untouched — while the
destination receives, via `set`, the singleton on `dst` with the original
tick and kind of each record that covered `src`; on the concrete source
`[Modified([20,32),1), Modified([32,98),2)]` with `migrate_to(other,25,67)`
the source becomes
`[Modified([20,25),1), Modified([26,32),1), Modified([32,98),2)]` and the
destination `[Modified(single(67),1)]`. -/
theorem changes_migrate_to_moves (cs other : Changes) (src dst : Nat) :
    ((cs.migrate_to other src dst).1 = (cs.remove src).1)
    ∧ (∀ v ∈ (cs.migrate_to other src dst).1.inner, ¬ v.slice.contains src)
    ∧ (∀ (sl t : Nat) (k : ChangeKind), sl ≠ src →
        ((∃ v ∈ (cs.migrate_to other src dst).1.inner,
            v.slice.contains sl ∧ v.tick = t ∧ v.kind = k) ↔
          (∃ v ∈ cs.inner, v.slice.contains sl ∧ v.tick = t ∧ v.kind = k)))
    ∧ ((cs.migrate_to other src dst).2 =
        ((cs.inner.filter (fun v => decide (v.slice.contains src))).map
          (fun v => (⟨Slice.single dst, v.tick, v.kind⟩ : Change))).foldl
            Changes.set other)
    ∧ (Changes.migrate_to ⟨[⟨⟨20, 32⟩, 1, .Modified⟩, ⟨⟨32, 98⟩, 2, .Modified⟩]⟩
          ⟨[]⟩ 25 67 =
        (⟨[⟨⟨20, 25⟩, 1, .Modified⟩, ⟨⟨26, 32⟩, 1, .Modified⟩,
            ⟨⟨32, 98⟩, 2, .Modified⟩]⟩,
          ⟨[⟨⟨67, 68⟩, 1, .Modified⟩]⟩)) := by
  refine ⟨rfl, ?_, ?_, ?_, by decide⟩
  · intro v hv
    exact removeLoop_not_contains src cs.inner [] [] [] (by simp) (by simp) v hv
  · intro sl t k hne
    have hm : ∀ x : Change, (x ∈ (cs.migrate_to other src dst).1.inner ↔
        x ∈ (cs.inner.map (Changes.excise src)).flatten) := by
      intro x
      simpa [Changes.migrate_to, Changes.remove] using
        removeLoop_mem src cs.inner [] [] [] x
    constructor
    · rintro ⟨v, hv, hp⟩
      rcases List.mem_flatten.mp ((hm v).mp hv) with ⟨piece, hpiece, hvp⟩
      rcases List.mem_map.mp hpiece with ⟨v0, hv0, rfl⟩
      exact ⟨v0, hv0, (excise_cover src v0 sl t k hne).mp ⟨v, hvp, hp⟩⟩
    · rintro ⟨v0, hv0, hp⟩
      rcases (excise_cover src v0 sl t k hne).mpr hp with ⟨v, hvp, hpv⟩
      refine ⟨v, (hm v).mpr ?_, hpv⟩
      exact List.mem_flatten.mpr ⟨Changes.excise src v0, List.mem_map_of_mem _ hv0, hvp⟩
  · have hr : (cs.remove src).2 =
        (cs.inner.filter (fun v => decide (v.slice.contains src))).map
          (fun v => (⟨Slice.single src, v.tick, v.kind⟩ : Change)) := by
      simpa [Changes.remove] using removeLoop_removed src cs.inner [] [] []
    rw [Changes.migrate_to]
    simp only [hr, List.foldl_map]

/-- A convenient witness for C4 at the concrete migrate scenario. -/
theorem changes_migrate_to_moves_witness :
    Changes.migrate_to ⟨[⟨⟨20, 32⟩, 1, .Modified⟩, ⟨⟨32, 98⟩, 2, .Modified⟩]⟩
        ⟨[]⟩ 25 67 =
      (⟨[⟨⟨20, 25⟩, 1, .Modified⟩, ⟨⟨26, 32⟩, 1, .Modified⟩,
          ⟨⟨32, 98⟩, 2, .Modified⟩]⟩,
        ⟨[⟨⟨67, 68⟩, 1, .Modified⟩]⟩) :=
  (changes_migrate_to_moves ⟨[]⟩ ⟨[]⟩ 0 0).2.2.2.2

/-! ## Claim theorems: the filter combinators -/

theorem Slice.le_iff (a b : Slice) :
    Slice.le a b ↔ a.start < b.start ∨ (a.start = b.start ∧ a.stop ≤ b.stop) := by
  cases a; cases b
  simp only [Slice.le, Slice.lt, Slice.mk.injEq]
  omega

theorem Slice.le_trans (a b c : Slice) (h1 : Slice.le a b) (h2 : Slice.le b c) :
    Slice.le a c := by
  rw [Slice.le_iff] at h1 h2 ⊢
  omega

theorem Slice.le_refl (a : Slice) : Slice.le a a := Or.inr rfl

theorem Slice.lt_imp_le (a b : Slice) (h : Slice.lt a b) : Slice.le a b := Or.inl h

theorem Slice.not_lt_imp_le (a b : Slice) (h : ¬ Slice.lt a b) : Slice.le b a := by
  simp only [Slice.lt, not_or, not_and, not_lt] at h
  rw [Slice.le_iff]
  omega

theorem orFoldl_mem (xs : List Slice) :
    ∀ x : Slice, xs.foldl (fun m r => if Slice.lt r m then r else m) x ∈ x :: xs := by
  induction xs with
  | nil => intro x; simp
  | cons y ys ih =>
    intro x
    simp only [List.foldl_cons]
    have h := ih (if Slice.lt y x then y else x)
    rcases List.mem_cons.mp h with h' | h'
    · rw [h']
      split_ifs <;> simp
    · simp [h']

theorem orFoldl_le (xs : List Slice) :
    ∀ x : Slice, ∀ r ∈ x :: xs,
      Slice.le (xs.foldl (fun m r => if Slice.lt r m then r else m) x) r := by
  induction xs with
  | nil =>
    intro x r hr
    rcases List.mem_cons.mp hr with rfl | h
    · exact Slice.le_refl r
    · simp at h
  | cons y ys ih =>
    intro x r hr
    simp only [List.foldl_cons]
    have hhead : Slice.le (ys.foldl (fun m r => if Slice.lt r m then r else m)
        (if Slice.lt y x then y else x)) (if Slice.lt y x then y else x) :=
      ih _ _ (List.mem_cons_self _ _)
    rcases List.mem_cons.mp hr with rfl | hr'
    · refine Slice.le_trans _ _ _ hhead ?_
      split_ifs with h
      · exact Slice.lt_imp_le _ _ h
      · exact Slice.le_refl _
    · rcases List.mem_cons.mp hr' with rfl | hr''
      · refine Slice.le_trans _ _ _ hhead ?_
        split_ifs with h
        · exact Slice.le_refl _
        · exact Slice.not_lt_imp_le _ _ h
      · exact ih _ _ (List.mem_cons_of_mem _ hr'')

/-- C8 counterexample: with branch results `[0,0)` (empty) and `[3,5)`
(non-empty) — both legal under the slot-filtering contract for
`slots = [0,10)` — `Or::filter_slots` returns the empty slice `[0,0)`,
not the minimum non-empty result `[3,5)`, so the result is empty although
not every branch result is empty. -/
theorem or_filter_slots_counterexample :
    Or.filter_slots [⟨0, 0⟩, ⟨3, 5⟩] = ⟨0, 0⟩
    ∧ (⟨0, 0⟩ : Slice).is_empty = true
    ∧ (⟨3, 5⟩ : Slice).is_empty = false
    ∧ FilterContract ⟨0, 0⟩ ⟨0, 10⟩
    ∧ FilterContract ⟨3, 5⟩ ⟨0, 10⟩ := by
  refine ⟨by decide, by decide, by decide, Or.inl (by decide), Or.inr (by decide)⟩

/-- C8 (amended): `Or::filter_slots` over at least one branch returns the
least branch result in the lexicographic `(start, end)` slice order — which
is the minimum non-empty result only when every empty branch result
compares at least as large — and `set_visited` is forwarded to every
branch, not only the one whose result was returned. -/
theorem or_filter_slots_min (x : Slice) (xs : List Slice)
    (branches : List (List Slice)) (s : Slice) :
    Or.filter_slots (x :: xs) ∈ x :: xs
    ∧ (∀ r ∈ x :: xs, Slice.le (Or.filter_slots (x :: xs)) r)
    ∧ (∀ i : Nat, (Or.set_visited branches s)[i]? = branches[i]?.map (fun v => s :: v)) := by
  refine ⟨?_, ?_, ?_⟩
  · simpa [Or.filter_slots] using orFoldl_mem xs x
  · intro r hr
    simpa [Or.filter_slots] using orFoldl_le xs x r hr
  · intro i
    simp [Or.set_visited]

/-- A convenient witness for the amended C8 at concrete branches. -/
theorem or_filter_slots_min_witness :
    Or.filter_slots [⟨2, 3⟩] ∈ [(⟨2, 3⟩ : Slice)] :=
  (or_filter_slots_min ⟨2, 3⟩ [] [] ⟨0, 0⟩).1

theorem Slice.difference_isSome (a b : Slice)
    (h : b.len = 0 ∨ b.start = a.start ∨ b.stop = a.stop) :
    (a.difference b).isSome = true := by
  unfold Slice.difference
  simp only [Slice.len] at h
  split_ifs with h1 h2 h3 <;> simp_all <;> omega

/-- C9 counterexample: the inner filter result `[1,2)` is a sub-slice of
`slots = [0,3)` — satisfying the stated precondition — yet
`Not::filter_slots` panics: the set difference `[0,3) \ [1,2)` is not a
single slice, so `Slice::difference` returns `None` and the `unwrap`
fails. -/
theorem not_filter_slots_counterexample :
    Not.filter_slots (some (fun _ => ⟨1, 2⟩)) ⟨0, 3⟩ = none
    ∧ FilterContract ⟨1, 2⟩ ⟨0, 3⟩ := by
  refine ⟨by decide, Or.inr (by decide)⟩

/-- C9 (amended): the partial slice operations are total under a boundary
condition: `Not(A)::filter_slots` never panics when the inner result is
empty or shares the start or the end of `slots` (a strictly interior
sub-slice splits `slots` in two and does panic, see the counterexample);
`ArchetypeChunks::next_chunk` never panics whenever the filter obeys the
sub-slice-or-empty contract. -/
theorem filter_pipeline_total (f : Slice → Slice) (slots : Slice)
    (hb : (f slots).len = 0 ∨ (f slots).start = slots.start ∨
      (f slots).stop = slots.stop) :
    (Not.filter_slots (some f) slots).isSome = true
    ∧ ∀ (g : Slice → Slice) (sl : Slice), FilterContract (g sl) sl →
        ArchetypeChunks.next_chunk g sl ≠ none := by
  constructor
  · simpa [Not.filter_slots] using Slice.difference_isSome slots (f slots) hb
  · intro g sl hfc
    rw [ArchetypeChunks.next_chunk]
    split_ifs with h1 h2
    · simp
    · simp
    · rcases hfc with hfc | hfc
      · exfalso
        simp [Slice.is_empty, hfc] at h2
      · rw [Slice.split_with, if_pos ⟨hfc.1, hfc.2⟩]
        simp

/-- A convenient witness for the amended C9 at a concrete prefix filter. -/
theorem filter_pipeline_total_witness :
    (Not.filter_slots (some (fun _ => ⟨0, 2⟩)) ⟨0, 5⟩).isSome = true :=
  (filter_pipeline_total (fun _ => ⟨0, 2⟩) ⟨0, 5⟩ (Or.inr (Or.inl rfl))).1

/-! ## Association-list lemmas -/

theorem alookup_aerase {α β : Type} [DecidableEq α] (l : List (α × β)) (x y : α) :
    alookup (aerase l x) y = if y = x then none else alookup l y := by
  induction l with
  | nil => simp [aerase, alookup]
  | cons p r ih =>
    by_cases hp : p.1 = x
    · have : aerase (p :: r) x = aerase r x := by
        simp [aerase, hp]
      rw [this, ih]
      by_cases hyx : y = x
      · simp [hyx]
      · have hpy : ¬ p.1 = y := by rw [hp]; exact fun h => hyx h.symm
        simp [hyx, alookup, hpy]
    · have : aerase (p :: r) x = p :: aerase r x := by
        simp [aerase, hp]
      rw [this]
      by_cases hpy : p.1 = y
      · have hyx : ¬ y = x := fun h => hp (hpy.trans h)
        simp [alookup, hpy, hyx]
      · simp [alookup, hpy, ih]

theorem alookup_aupdate {α β : Type} [DecidableEq α] (l : List (α × β)) (x : α) (v : β)
    (y : α) :
    alookup (aupdate l x v) y = if y = x then some v else alookup l y := by
  by_cases hyx : y = x
  · simp [aupdate, alookup, hyx]
  · have hxy : ¬ x = y := fun h => hyx h.symm
    simp [aupdate, alookup, hxy, alookup_aerase, hyx]

theorem aerase_isEmpty_lookup {α β : Type} [DecidableEq α] (l : List (α × β)) (x : α)
    (h : (aerase l x).isEmpty = true) :
    ∀ y : α, y ≠ x → alookup l y = none := by
  intro y hy
  have := alookup_aerase l x y
  rw [if_neg hy] at this
  rw [← this]
  rcases he : aerase l x with _ | ⟨p, r⟩
  · simp [alookup]
  · rw [he] at h; simp [List.isEmpty] at h

/-! ## Claim theorems: find_create -/

/-- C5: when `find_create` creates a child for an Exclusive relation head,
the child's component set is the parent's components plus `head` minus
every key with the same relation id as `head` but a different key; `head`
itself is kept, and no two keys of the child share `head`'s relation id
with different objects. -/
theorem find_create_exclusive (parent : List ComponentDesc) (head : ComponentDesc)
    (h1 : head.is_relation = true) (h2 : head.exclusive = true) :
    (childComponents parent head =
      (parent ++ [head]).filter (fun v => !(v.key.id == head.key.id && v.key != head.key)))
    ∧ head ∈ childComponents parent head
    ∧ (∀ v1 ∈ childComponents parent head, ∀ v2 ∈ childComponents parent head,
        v1.key.id = head.key.id → v2.key.id = head.key.id → v1.key = v2.key) := by
  have h1' : head.key.is_relation = true := h1
  have hfilter : childComponents parent head =
      (parent ++ [head]).filter (fun v => v.key.id != head.key.id || v.key == head.key) := by
    simp [childComponents, ComponentDesc.is_relation, h1', h2]
  have hpred : (fun v : ComponentDesc => v.key.id != head.key.id || v.key == head.key) =
      (fun v : ComponentDesc => !(v.key.id == head.key.id && v.key != head.key)) := by
    funext v
    cases ha : (v.key.id == head.key.id) <;> cases hb : (v.key == head.key) <;>
      simp [bne, ha, hb]
  refine ⟨by rw [hfilter, hpred], ?_, ?_⟩
  · rw [hfilter]
    refine List.mem_filter.mpr ⟨by simp, by simp⟩
  · intro v1 hv1 v2 hv2 e1 e2
    rw [hfilter] at hv1 hv2
    have p1 := (List.mem_filter.mp hv1).2
    have p2 := (List.mem_filter.mp hv2).2
    simp only [e1, bne_self_eq_false, Bool.false_or, beq_iff_eq] at p1
    simp only [e2, bne_self_eq_false, Bool.false_or, beq_iff_eq] at p2
    rw [p1, p2]

/-- A convenient witness for C5 at a concrete parent and head. -/
theorem find_create_exclusive_witness :
    childComponents [⟨⟨3, some 5⟩, true⟩] ⟨⟨3, some 9⟩, true⟩ =
      [⟨⟨3, some 9⟩, true⟩] :=
  ((find_create_exclusive [⟨⟨3, some 5⟩, true⟩] ⟨⟨3, some 9⟩, true⟩
      (by decide) (by decide)).1).trans (by decide)

/-- C10: `find_create` on an empty component iterator returns the root
archetype id and the root archetype, and leaves the whole state — store,
graph, index and generation counter — unchanged. -/
theorem find_create_empty (s : Archetypes) (rootArch : Archetype)
    (h : alookup s.inner s.root = some rootArch) :
    s.find_create [] = some (s.root, rootArch, s) := by
  simp [Archetypes.find_create, Archetypes.findCreateGo, h]

/-- A convenient witness for C10 at a concrete store. -/
theorem find_create_empty_witness :
    Archetypes.find_create ⟨0, 1, 7, 2, [(0, ⟨[], 0, [], []⟩), (1, ⟨[], 0, [], []⟩)], ⟨[]⟩⟩ [] =
      some (0, ⟨[], 0, [], []⟩,
        ⟨0, 1, 7, 2, [(0, ⟨[], 0, [], []⟩), (1, ⟨[], 0, [], []⟩)], ⟨[]⟩⟩) :=
  find_create_empty _ _ rfl

/-! ## Pruning: the store only shrinks -/

theorem storeShrinks_refl (s : Archetypes) : StoreShrinks s s := by
  constructor
  · intro j h; exact h
  · intro j a a' k h1 h2 h3
    rw [h1] at h2
    have := Option.some.inj h2
    subst this
    exact h3

theorem storeShrinks_trans {s1 s2 s3 : Archetypes}
    (h12 : StoreShrinks s1 s2) (h23 : StoreShrinks s2 s3) : StoreShrinks s1 s3 := by
  constructor
  · intro j h; exact h23.1 j (h12.1 j h)
  · intro j a a' k h1 h3 hout
    rcases hm : alookup s2.inner j with _ | a2
    · have := h23.1 j hm
      rw [this] at h3
      cases h3
    · exact h23.2 j a2 a' k hm h3 (h12.2 j a a2 k h1 hm hout)

theorem storeShrinks_inner_eq {s s' : Archetypes} (h : s'.inner = s.inner) :
    StoreShrinks s s' := by
  constructor
  · intro j hj; rw [h]; exact hj
  · intro j a a' k h1 h2 h3
    rw [h, h1] at h2
    have ha := Option.some.inj h2
    subst ha
    exact h3

theorem storeShrinks_erase (s : Archetypes) (id : Nat) (idx : ArchetypeIndex) :
    StoreShrinks s { s with inner := aerase s.inner id, index := idx } := by
  constructor
  · intro j hj
    simp only [alookup_aerase]
    split_ifs <;> simp [hj]
  · intro j a a' k h1 h2 h3
    simp only [alookup_aerase] at h2
    split_ifs at h2
    rw [h1] at h2
    have ha := Option.some.inj h2
    subst ha
    exact h3

theorem storeShrinks_removeLink (s : Archetypes) (dst : Nat) (dst0 : Archetype)
    (key : ComponentKey) (h : alookup s.inner dst = some dst0) :
    StoreShrinks s
      { s with inner :=
          aupdate s.inner dst { dst0 with outgoing := aerase dst0.outgoing key } } := by
  constructor
  · intro j hj
    simp only [alookup_aupdate]
    split_ifs with he
    · subst he; rw [h] at hj; simp at hj
    · exact hj
  · intro j a a' k h1 h2 h3
    simp only [alookup_aupdate] at h2
    split_ifs at h2 with he
    · subst he
      rw [h1] at h
      have ha := Option.some.inj h
      subst ha
      have ha' := Option.some.inj h2
      subst ha'
      simp only [alookup_aerase]
      split_ifs <;> simp [h3]
    · rw [h1] at h2
      have ha := Option.some.inj h2
      subst ha
      exact h3

theorem prune_arch_zero (s : Archetypes) (id : Nat) :
    Archetypes.prune_arch 0 s id = none := by
  rw [Archetypes.prune_arch]

theorem prune_shrinks (fuel : Nat) :
    (∀ s id b s', Archetypes.prune_arch fuel s id = some (b, s') → StoreShrinks s s')
    ∧ (∀ l s s', Archetypes.pruneIncoming fuel s l = some s' → StoreShrinks s s') := by
  induction fuel with
  | zero =>
    constructor
    · intro s id b s' h
      rw [prune_arch_zero] at h
      simp at h
    · intro l
      induction l with
      | nil =>
        intro s s' h
        rw [Archetypes.pruneIncoming] at h
        have := Option.some.inj h
        subst this
        exact storeShrinks_refl s
      | cons p rest ihl =>
        intro s s' h
        obtain ⟨key, dstid⟩ := p
        rw [Archetypes.pruneIncoming] at h
        split at h
        · simp at h
        · rw [prune_arch_zero] at h
          simp at h
  | succ n ih =>
    have hA : ∀ s id b s', Archetypes.prune_arch (n + 1) s id = some (b, s') →
        StoreShrinks s s' := by
      intro s id b s' h
      rw [Archetypes.prune_arch] at h
      split at h
      · simp at h
      · rename_i arch hlk
        split at h
        · have h2 := Option.some.inj h
          have hs : s = s' := congrArg Prod.snd h2
          subst hs
          exact storeShrinks_refl s
        · split at h
          · simp at h
          · rename_i idx hu
            split at h
            · simp at h
            · rename_i s2 hp
              have h2 := Option.some.inj h
              have hs : { s2 with gen := (s2.gen + 1) % 4294967296 } = s' :=
                congrArg Prod.snd h2
              subst hs
              refine storeShrinks_trans (storeShrinks_erase s id idx) ?_
              refine storeShrinks_trans (ih.2 arch.incoming _ s2 hp) ?_
              exact storeShrinks_inner_eq rfl
    refine ⟨hA, ?_⟩
    intro l
    induction l with
    | nil =>
      intro s s' h
      rw [Archetypes.pruneIncoming] at h
      have := Option.some.inj h
      subst this
      exact storeShrinks_refl s
    | cons p rest ihl =>
      intro s s' h
      obtain ⟨key, dstid⟩ := p
      rw [Archetypes.pruneIncoming] at h
      split at h
      · simp at h
      · rename_i dst0 hlk
        split at h
        · simp at h
        · rename_i b2 s2 hp
          refine storeShrinks_trans (storeShrinks_removeLink s dstid dst0 key hlk) ?_
          exact storeShrinks_trans (hA _ _ _ _ hp) (ihl s2 s' h)

theorem pruneIncoming_links (n : Nat) (l : List (ComponentKey × Nat)) :
    ∀ s s', Archetypes.pruneIncoming n s l = some s' →
      ∀ (k : ComponentKey) (dst : Nat), (k, dst) ∈ l →
        ∀ dArch, alookup s'.inner dst = some dArch → alookup dArch.outgoing k = none := by
  induction l with
  | nil =>
    intro s s' h k dst hmem
    simp at hmem
  | cons p rest ih =>
    intro s s' h k dst hmem dArch hdA
    obtain ⟨key, dstid⟩ := p
    rw [Archetypes.pruneIncoming] at h
    split at h
    · simp at h
    · rename_i dst0 hlk
      split at h
      · simp at h
      · rename_i b2 s2 hp
        rcases List.mem_cons.mp hmem with heq | hmem'
        · have hk : k = key := congrArg Prod.fst heq
          have hd : dst = dstid := congrArg Prod.snd heq
          subst hk; subst hd
          have hs1 : alookup
              (aupdate s.inner dst { dst0 with outgoing := aerase dst0.outgoing k }) dst =
              some { dst0 with outgoing := aerase dst0.outgoing k } := by
            rw [alookup_aupdate, if_pos rfl]
          have hout : alookup (aerase dst0.outgoing k) k = none := by
            rw [alookup_aerase, if_pos rfl]
          have sh : StoreShrinks
              { s with inner :=
                  aupdate s.inner dst { dst0 with outgoing := aerase dst0.outgoing k } } s' :=
            storeShrinks_trans ((prune_shrinks n).1 _ _ _ _ hp)
              ((prune_shrinks n).2 rest s2 s' h)
          exact sh.2 dst { dst0 with outgoing := aerase dst0.outgoing k } dArch k hs1 hdA hout
        · exact ih s2 s' h k dst hmem' dArch hdA

/-! ## Claim theorem: prune_arch -/

/-- C6: `prune_arch` returns `false` and leaves the state untouched when the
archetype is the root or the reserved archetype, is non-empty, or has
outgoing edges; otherwise a successful run returns `true`, the archetype
has been despawned from the store, its index unregistration succeeded, and
every surviving incoming neighbour has lost its outgoing link towards the
pruned archetype. -/
theorem prune_arch_spec (fuel : Nat) (s : Archetypes) (arch_id : Nat) (arch : Archetype)
    (hlk : alookup s.inner arch_id = some arch) :
    ((arch_id = s.root ∨ arch_id = s.reserved ∨ arch.entities ≠ 0 ∨ arch.outgoing ≠ []) →
        Archetypes.prune_arch (fuel + 1) s arch_id = some (false, s))
    ∧ (¬ (arch_id = s.root ∨ arch_id = s.reserved ∨ arch.entities ≠ 0 ∨ arch.outgoing ≠ []) →
        ∀ b s', Archetypes.prune_arch (fuel + 1) s arch_id = some (b, s') →
          b = true
          ∧ (ArchetypeIndex.unregister s.index arch_id arch.componentPairs).isSome = true
          ∧ alookup s'.inner arch_id = none
          ∧ ∀ (k : ComponentKey) (dst_id : Nat), (k, dst_id) ∈ arch.incoming →
              ∀ dArch, alookup s'.inner dst_id = some dArch →
                alookup dArch.outgoing k = none) := by
  constructor
  · intro hg
    simp only [Archetypes.prune_arch, hlk]
    rw [if_pos hg]
  · intro hg b s' h
    rw [Archetypes.prune_arch] at h
    split at h
    · simp at h
    · rename_i arch' hlk'
      rw [hlk] at hlk'
      have harch := Option.some.inj hlk'
      subst harch
      split at h
      · rename_i hg'
        exact absurd hg' hg
      · split at h
        · simp at h
        · rename_i idx hu
          split at h
          · simp at h
          · rename_i s2 hp
            have h2 := Option.some.inj h
            have hb : b = true := (congrArg Prod.fst h2).symm
            have hs : { s2 with gen := (s2.gen + 1) % 4294967296 } = s' :=
              congrArg Prod.snd h2
            subst hs
            refine ⟨hb, by rw [hu]; rfl, ?_, ?_⟩
            · have h0 : alookup (aerase s.inner arch_id) arch_id = none := by
                rw [alookup_aerase, if_pos rfl]
              exact ((prune_shrinks fuel).2 arch.incoming _ s2 hp).1 arch_id h0
            · intro k dst_id hmem dArch hdA
              exact pruneIncoming_links fuel arch.incoming _ s2 hp k dst_id hmem dArch hdA

/-- A convenient witness for C6: pruning the root is a no-op returning
`false`. -/
theorem prune_arch_spec_witness :
    Archetypes.prune_arch 1 ⟨0, 1, 5, 1, [(0, ⟨[], 1, [], []⟩)], ⟨[]⟩⟩ 0 =
      some (false, ⟨0, 1, 5, 1, [(0, ⟨[], 1, [], []⟩)], ⟨[]⟩⟩) :=
  (prune_arch_spec 0 ⟨0, 1, 5, 1, [(0, ⟨[], 1, [], []⟩)], ⟨[]⟩⟩ 0 ⟨[], 1, [], []⟩ rfl).1
    (Or.inl rfl)

/-! ## Index lookup computation lemmas -/

theorem idxLookup_directInsert (idx : ArchetypeIndex) (b : Nat) (key : ComponentKey)
    (r : ArchetypeRecord) (k : ComponentKey) (a : Nat) :
    idxLookup (directInsert idx b key r) k a =
      if k = key ∧ a = b then some r else idxLookup idx k a := by
  unfold directInsert idxLookup
  simp only [alookup_aupdate]
  by_cases hk : k = key
  · subst hk
    rw [if_pos rfl]
    simp only [Option.some_bind]
    rw [alookup_aupdate]
    by_cases ha : a = b
    · simp [ha]
    · simp only [if_neg ha, if_neg (fun hc : k = k ∧ a = b => ha hc.2)]
      rcases alookup idx.components k with _ | bu <;> simp [alookup, ha]
  · rw [if_neg hk, if_neg (fun hc : k = key ∧ a = b => hk hc.1)]

theorem optCount_getD (o : Option ArchetypeRecord) (ci : Nat) :
    (o.getD ⟨ci, 0⟩).relation_count = optCount o := by
  cases o <;> rfl

theorem registerRelation_eq (idx : ArchetypeIndex) (b : Nat) (key : ComponentKey)
    (ci : Nat) :
    registerRelation idx b key ci =
      directInsert idx b key
        ⟨((idxLookup idx key b).getD ⟨ci, 0⟩).cell_index,
          ((idxLookup idx key b).getD ⟨ci, 0⟩).relation_count + 1⟩ := by
  unfold registerRelation directInsert idxLookup
  rcases h : alookup idx.components key with _ | bu <;> simp [h, alookup]

theorem registerRelation_lookup (idx : ArchetypeIndex) (b : Nat) (key : ComponentKey)
    (ci : Nat) (k : ComponentKey) (a : Nat) :
    idxLookup (registerRelation idx b key ci) k a =
      if k = key ∧ a = b then
        some ⟨((idxLookup idx key b).getD ⟨ci, 0⟩).cell_index,
          ((idxLookup idx key b).getD ⟨ci, 0⟩).relation_count + 1⟩
      else idxLookup idx k a := by
  rw [registerRelation_eq, idxLookup_directInsert]

theorem registerStep_lookup_nonrel (idx : ArchetypeIndex) (b : Nat) (key : ComponentKey)
    (ci : Nat) (hrel : key.is_relation = false) (k : ComponentKey) (a : Nat) :
    idxLookup (registerStep b idx (key, ci)) k a =
      if k = key ∧ a = b then some ⟨ci, 0⟩ else idxLookup idx k a := by
  unfold registerStep
  simp only [hrel, Bool.false_eq_true, if_false, idxLookup_directInsert]

theorem registerStep_rel_eq (idx : ArchetypeIndex) (b : Nat) (key : ComponentKey)
    (ci : Nat) (hrel : key.is_relation = true) :
    registerStep b idx (key, ci) =
      directInsert
        (registerRelation (registerRelation idx b ⟨dummy, key.object⟩ ci)
          b ⟨key.id, some dummy⟩ ci) b key ⟨ci, 0⟩ := by
  simp [registerStep, hrel]

theorem registerStep_rel_at_key (idx : ArchetypeIndex) (b : Nat) (key : ComponentKey)
    (ci : Nat) (hrel : key.is_relation = true) :
    idxLookup (registerStep b idx (key, ci)) key b = some ⟨ci, 0⟩ := by
  rw [registerStep_rel_eq idx b key ci hrel, idxLookup_directInsert, if_pos ⟨rfl, rfl⟩]

theorem registerStep_rel_at_w1 (idx : ArchetypeIndex) (b : Nat) (key : ComponentKey)
    (ci : Nat) (obj : Nat) (hobj : key.object = some obj) (hid : key.id ≠ dummy) :
    idxLookup (registerStep b idx (key, ci)) ⟨dummy, some obj⟩ b =
      some ⟨((idxLookup idx ⟨dummy, some obj⟩ b).getD ⟨ci, 0⟩).cell_index,
        ((idxLookup idx ⟨dummy, some obj⟩ b).getD ⟨ci, 0⟩).relation_count + 1⟩ := by
  have hrel : key.is_relation = true := by simp [ComponentKey.is_relation, hobj]
  have hkw1 : ¬((⟨dummy, some obj⟩ : ComponentKey) = key ∧ (b : Nat) = b) := by
    rintro ⟨hc, -⟩
    exact hid (congrArg ComponentKey.id hc).symm
  have hw12 : ¬((⟨dummy, some obj⟩ : ComponentKey) = ⟨key.id, some dummy⟩ ∧ (b : Nat) = b) := by
    rintro ⟨hc, -⟩
    exact hid (congrArg ComponentKey.id hc).symm
  rw [registerStep_rel_eq idx b key ci hrel, idxLookup_directInsert, if_neg hkw1,
    registerRelation_lookup, if_neg hw12, hobj, registerRelation_lookup, if_pos ⟨rfl, rfl⟩]

theorem registerStep_rel_at_w2 (idx : ArchetypeIndex) (b : Nat) (key : ComponentKey)
    (ci : Nat) (obj : Nat) (hobj : key.object = some obj) (hid : key.id ≠ dummy)
    (hobjc : obj ≠ dummy) :
    idxLookup (registerStep b idx (key, ci)) ⟨key.id, some dummy⟩ b =
      some ⟨((idxLookup idx ⟨key.id, some dummy⟩ b).getD ⟨ci, 0⟩).cell_index,
        ((idxLookup idx ⟨key.id, some dummy⟩ b).getD ⟨ci, 0⟩).relation_count + 1⟩ := by
  have hrel : key.is_relation = true := by simp [ComponentKey.is_relation, hobj]
  have hkw2 : ¬((⟨key.id, some dummy⟩ : ComponentKey) = key ∧ (b : Nat) = b) := by
    rintro ⟨hc, -⟩
    have := (congrArg ComponentKey.object hc).symm
    rw [hobj] at this
    exact hobjc (Option.some.inj this)
  have hpos : ((⟨key.id, some dummy⟩ : ComponentKey) = ⟨key.id, some dummy⟩ ∧ (b : Nat) = b) :=
    ⟨rfl, rfl⟩
  rw [registerStep_rel_eq idx b key ci hrel, idxLookup_directInsert, if_neg hkw2, hobj,
    registerRelation_lookup, if_pos hpos, registerRelation_lookup]
  have hw21 : ¬((⟨key.id, some dummy⟩ : ComponentKey) = ⟨dummy, some obj⟩ ∧ (b : Nat) = b) := by
    rintro ⟨hc, -⟩
    exact hid (congrArg ComponentKey.id hc)
  rw [if_neg hw21]

theorem registerStep_rel_frame (idx : ArchetypeIndex) (b : Nat) (key : ComponentKey)
    (ci : Nat) (obj : Nat) (hobj : key.object = some obj) (k : ComponentKey) (a : Nat)
    (hne1 : ¬(k = key ∧ a = b)) (hne2 : ¬(k = ⟨dummy, some obj⟩ ∧ a = b))
    (hne3 : ¬(k = ⟨key.id, some dummy⟩ ∧ a = b)) :
    idxLookup (registerStep b idx (key, ci)) k a = idxLookup idx k a := by
  have hrel : key.is_relation = true := by simp [ComponentKey.is_relation, hobj]
  rw [registerStep_rel_eq idx b key ci hrel, idxLookup_directInsert, if_neg hne1,
    registerRelation_lookup, if_neg hne3, hobj, registerRelation_lookup, if_neg hne2]

/-! ## Wildcard-count bookkeeping -/

theorem wcObj_append (l1 l2 : List (ComponentKey × Nat)) (obj : Nat) :
    wcObj (l1 ++ l2) obj = wcObj l1 obj + wcObj l2 obj := by
  simp [wcObj, List.filter_append]

theorem wcId_append (l1 l2 : List (ComponentKey × Nat)) (i : Nat) :
    wcId (l1 ++ l2) i = wcId l1 i + wcId l2 i := by
  simp [wcId, List.filter_append]

theorem wcObj_single_hit (key : ComponentKey) (ci obj : Nat) (h : key.object = some obj) :
    wcObj [(key, ci)] obj = 1 := by
  simp [wcObj, h]

theorem wcObj_single_miss (key : ComponentKey) (ci obj : Nat)
    (h : key.object ≠ some obj) : wcObj [(key, ci)] obj = 0 := by
  simp [wcObj, h]

theorem wcId_single_hit (key : ComponentKey) (ci : Nat) (obj : Nat)
    (h : key.object = some obj) : wcId [(key, ci)] key.id = 1 := by
  simp [wcId, h]

theorem wcId_single_miss_id (key : ComponentKey) (ci i : Nat) (h : key.id ≠ i) :
    wcId [(key, ci)] i = 0 := by
  simp [wcId, h]

theorem wcId_single_miss_obj (key : ComponentKey) (ci i : Nat) (h : key.object = none) :
    wcId [(key, ci)] i = 0 := by
  simp [wcId, h]

/-! ## RegState preservation under one register step -/

theorem registerStep_state (b : Nat) (key : ComponentKey) (ci : Nat)
    (pro : List (ComponentKey × Nat)) (idx : ArchetypeIndex)
    (hid : key.id ≠ dummy) (hobjc : key.object ≠ some dummy)
    (h : RegState idx b pro) :
    RegState (registerStep b idx (key, ci)) b (pro ++ [(key, ci)]) := by
  obtain ⟨hnorm, hwobj, hwid, hjunk1, hjunk2⟩ := h
  rcases hro : key.object with _ | obj
  · -- non-relation component
    have hrel : key.is_relation = false := by simp [ComponentKey.is_relation, hro]
    refine ⟨?_, ?_, ?_, ?_, ?_⟩
    · intro k hkid hkobj
      by_cases hk : k = key
      · subst hk
        rw [registerStep_lookup_nonrel idx b k ci hrel k b, if_pos ⟨rfl, rfl⟩]
        refine ⟨by simp, ?_⟩
        intro r hr
        have := Option.some.inj hr
        subst this
        rfl
      · rw [registerStep_lookup_nonrel idx b key ci hrel k b, if_neg (fun hc => hk hc.1)]
        have hn := hnorm k hkid hkobj
        exact ⟨by rw [hn.1]; simp [hk], hn.2⟩
    · intro obj' hobj'
      have hne : ¬((⟨dummy, some obj'⟩ : ComponentKey) = key ∧ (b : Nat) = b) := by
        rintro ⟨hc, -⟩
        exact hid (congrArg ComponentKey.id hc).symm
      rw [registerStep_lookup_nonrel idx b key ci hrel _ b, if_neg hne]
      rw [wcObj_append, wcObj_single_miss key ci obj' (by rw [hro]; exact fun hc => Option.noConfusion hc)]
      exact hwobj obj' hobj'
    · intro i hi
      have hne : ¬((⟨i, some dummy⟩ : ComponentKey) = key ∧ (b : Nat) = b) := by
        rintro ⟨hc, -⟩
        have := congrArg ComponentKey.object hc
        rw [hro] at this
        exact Option.noConfusion this
      rw [registerStep_lookup_nonrel idx b key ci hrel _ b, if_neg hne]
      rw [wcId_append, wcId_single_miss_obj key ci i hro]
      exact hwid i hi
    · have hne : ¬((⟨dummy, some dummy⟩ : ComponentKey) = key ∧ (b : Nat) = b) := by
        rintro ⟨hc, -⟩
        exact hid (congrArg ComponentKey.id hc).symm
      rw [registerStep_lookup_nonrel idx b key ci hrel _ b, if_neg hne]
      exact hjunk1
    · have hne : ¬((⟨dummy, none⟩ : ComponentKey) = key ∧ (b : Nat) = b) := by
        rintro ⟨hc, -⟩
        exact hid (congrArg ComponentKey.id hc).symm
      rw [registerStep_lookup_nonrel idx b key ci hrel _ b, if_neg hne]
      exact hjunk2
  · -- relation component
    have hobjc' : obj ≠ dummy := fun hc => hobjc (by rw [hro, hc])
    have hrel : key.is_relation = true := by simp [ComponentKey.is_relation, hro]
    refine ⟨?_, ?_, ?_, ?_, ?_⟩
    · intro k hkid hkobj
      by_cases hk : k = key
      · subst hk
        rw [registerStep_rel_at_key idx b k ci hrel]
        refine ⟨by simp, ?_⟩
        intro r hr
        have := Option.some.inj hr
        subst this
        rfl
      · rw [registerStep_rel_frame idx b key ci obj hro k b
          (fun hc => hk hc.1)
          (fun hc => hkid (congrArg ComponentKey.id hc.1))
          (fun hc => hkobj (congrArg ComponentKey.object hc.1))]
        have hn := hnorm k hkid hkobj
        exact ⟨by rw [hn.1]; simp [hk], hn.2⟩
    · intro obj' hobj'
      by_cases ho : obj' = obj
      · subst ho
        rw [registerStep_rel_at_w1 idx b key ci obj' hro hid]
        have hold := hwobj obj' hobj'
        rw [wcObj_append, wcObj_single_hit key ci obj' hro]
        refine ⟨by simp, ?_⟩
        simp only [optCount]
        rw [optCount_getD, hold.2]
      · have hne1 : ¬((⟨dummy, some obj'⟩ : ComponentKey) = key ∧ (b : Nat) = b) := by
          rintro ⟨hc, -⟩
          exact hid (congrArg ComponentKey.id hc).symm
        have hne2 : ¬((⟨dummy, some obj'⟩ : ComponentKey) = ⟨dummy, some obj⟩ ∧ (b : Nat) = b) := by
          rintro ⟨hc, -⟩
          exact ho (Option.some.inj (congrArg ComponentKey.object hc))
        have hne3 : ¬((⟨dummy, some obj'⟩ : ComponentKey) = ⟨key.id, some dummy⟩ ∧ (b : Nat) = b) := by
          rintro ⟨hc, -⟩
          exact hid (congrArg ComponentKey.id hc).symm
        rw [registerStep_rel_frame idx b key ci obj hro _ b hne1 hne2 hne3]
        rw [wcObj_append, wcObj_single_miss key ci obj'
          (by rw [hro]; exact fun hc => ho (Option.some.inj hc).symm)]
        exact hwobj obj' hobj'
    · intro i hi
      by_cases hi' : i = key.id
      · subst hi'
        rw [registerStep_rel_at_w2 idx b key ci obj hro hid hobjc']
        have hold := hwid key.id hi
        rw [wcId_append, wcId_single_hit key ci obj hro]
        refine ⟨by simp, ?_⟩
        simp only [optCount]
        rw [optCount_getD, hold.2]
      · have hne1 : ¬((⟨i, some dummy⟩ : ComponentKey) = key ∧ (b : Nat) = b) := by
          rintro ⟨hc, -⟩
          have := congrArg ComponentKey.object hc
          rw [hro] at this
          exact hobjc' (Option.some.inj this).symm
        have hne2 : ¬((⟨i, some dummy⟩ : ComponentKey) = ⟨dummy, some obj⟩ ∧ (b : Nat) = b) := by
          rintro ⟨hc, -⟩
          exact hi (congrArg ComponentKey.id hc)
        have hne3 : ¬((⟨i, some dummy⟩ : ComponentKey) = ⟨key.id, some dummy⟩ ∧ (b : Nat) = b) := by
          rintro ⟨hc, -⟩
          exact hi' (congrArg ComponentKey.id hc)
        rw [registerStep_rel_frame idx b key ci obj hro _ b hne1 hne2 hne3]
        rw [wcId_append, wcId_single_miss_id key ci i (fun hc => hi' hc.symm)]
        exact hwid i hi
    · have hne1 : ¬((⟨dummy, some dummy⟩ : ComponentKey) = key ∧ (b : Nat) = b) := by
        rintro ⟨hc, -⟩
        exact hid (congrArg ComponentKey.id hc).symm
      have hne2 : ¬((⟨dummy, some dummy⟩ : ComponentKey) = ⟨dummy, some obj⟩ ∧ (b : Nat) = b) := by
        rintro ⟨hc, -⟩
        exact hobjc' (Option.some.inj (congrArg ComponentKey.object hc)).symm
      have hne3 : ¬((⟨dummy, some dummy⟩ : ComponentKey) = ⟨key.id, some dummy⟩ ∧ (b : Nat) = b) := by
        rintro ⟨hc, -⟩
        exact hid (congrArg ComponentKey.id hc).symm
      rw [registerStep_rel_frame idx b key ci obj hro _ b hne1 hne2 hne3]
      exact hjunk1
    · have hne1 : ¬((⟨dummy, none⟩ : ComponentKey) = key ∧ (b : Nat) = b) := by
        rintro ⟨hc, -⟩
        exact hid (congrArg ComponentKey.id hc).symm
      have hne2 : ¬((⟨dummy, none⟩ : ComponentKey) = ⟨dummy, some obj⟩ ∧ (b : Nat) = b) := by
        rintro ⟨hc, -⟩
        exact Option.noConfusion (congrArg ComponentKey.object hc)
      have hne3 : ¬((⟨dummy, none⟩ : ComponentKey) = ⟨key.id, some dummy⟩ ∧ (b : Nat) = b) := by
        rintro ⟨hc, -⟩
        exact hid (congrArg ComponentKey.id hc).symm
      rw [registerStep_rel_frame idx b key ci obj hro _ b hne1 hne2 hne3]
      exact hjunk2

/-! ## Register fold lemmas -/

theorem registerStep_frame (b : Nat) (p : ComponentKey × Nat) (idx : ArchetypeIndex)
    (k : ComponentKey) (a : Nat) (ha : a ≠ b) :
    idxLookup (registerStep b idx p) k a = idxLookup idx k a := by
  obtain ⟨key, ci⟩ := p
  rcases hro : key.object with _ | obj
  · have hrel : key.is_relation = false := by simp [ComponentKey.is_relation, hro]
    rw [registerStep_lookup_nonrel idx b key ci hrel k a, if_neg (fun hc => ha hc.2)]
  · exact registerStep_rel_frame idx b key ci obj hro k a
      (fun hc => ha hc.2) (fun hc => ha hc.2) (fun hc => ha hc.2)

theorem register_frame (b : Nat) (comps : List (ComponentKey × Nat)) :
    ∀ (idx : ArchetypeIndex) (k : ComponentKey) (a : Nat), a ≠ b →
      idxLookup (ArchetypeIndex.register idx b comps) k a = idxLookup idx k a := by
  induction comps with
  | nil => intro idx k a _; rfl
  | cons p rest ih =>
    intro idx k a ha
    rw [show ArchetypeIndex.register idx b (p :: rest) =
        ArchetypeIndex.register (registerStep b idx p) b rest from rfl]
    rw [ih (registerStep b idx p) k a ha, registerStep_frame b p idx k a ha]

theorem register_state (b : Nat) (comps : List (ComponentKey × Nat)) :
    ∀ (pro : List (ComponentKey × Nat)) (idx : ArchetypeIndex),
      CleanComps comps → RegState idx b pro →
      RegState (ArchetypeIndex.register idx b comps) b (pro ++ comps) := by
  induction comps with
  | nil =>
    intro pro idx _ h
    simpa using h
  | cons p rest ih =>
    intro pro idx hclean h
    obtain ⟨key, ci⟩ := p
    have hk := hclean (key, ci) (List.mem_cons_self _ _)
    have hstep := registerStep_state b key ci pro idx hk.1 hk.2 h
    have hrest : CleanComps rest := fun q hq => hclean q (List.mem_cons_of_mem _ hq)
    have hres := ih (pro ++ [(key, ci)]) (registerStep b idx (key, ci)) hrest hstep
    rw [show ArchetypeIndex.register idx b ((key, ci) :: rest) =
        ArchetypeIndex.register (registerStep b idx (key, ci)) b rest from rfl]
    simpa [List.append_assoc] using hres

theorem eq_none_of_isSome_imp_false {o : Option ArchetypeRecord}
    (h : o.isSome = true → False) : o = none := by
  cases o with
  | none => rfl
  | some r => exact (h rfl).elim

theorem regState_of_allNone (idx : ArchetypeIndex) (b : Nat)
    (h : ∀ k, idxLookup idx k b = none) : RegState idx b [] := by
  refine ⟨?_, ?_, ?_, h _, h _⟩
  · intro k _ _
    rw [h k]
    exact ⟨by simp, fun r hr => Option.noConfusion hr⟩
  · intro obj _
    rw [h ⟨dummy, some obj⟩]
    exact ⟨by simp [wcObj], rfl⟩
  · intro i _
    rw [h ⟨i, some dummy⟩]
    exact ⟨by simp [wcId], rfl⟩

theorem allNone_of_regState_nil (idx : ArchetypeIndex) (b : Nat)
    (h : RegState idx b []) : ∀ k, idxLookup idx k b = none := by
  obtain ⟨hn, ho, hi, hj1, hj2⟩ := h
  intro k
  obtain ⟨kid, kobj⟩ := k
  rcases kobj with _ | o
  · by_cases hkid : kid = dummy
    · subst hkid; exact hj2
    · apply eq_none_of_isSome_imp_false
      intro hs
      have := (hn ⟨kid, none⟩ hkid (by simp)).1.mp hs
      simp at this
  · by_cases ho' : o = dummy
    · subst ho'
      by_cases hkid : kid = dummy
      · subst hkid; exact hj1
      · apply eq_none_of_isSome_imp_false
        intro hs
        have := (hi kid hkid).1.mp hs
        simp [wcId] at this
    · by_cases hkid : kid = dummy
      · subst hkid
        apply eq_none_of_isSome_imp_false
        intro hs
        have := (ho o ho').1.mp hs
        simp [wcObj] at this
      · apply eq_none_of_isSome_imp_false
        intro hs
        have := (hn ⟨kid, some o⟩ hkid (fun hc => ho' (Option.some.inj hc))).1.mp hs
        simp at this

/-! ## Unregister lemmas -/

theorem unregisterRelation_some (idx : ArchetypeIndex) (b : Nat) (key : ComponentKey)
    (r : ArchetypeRecord) (hr : idxLookup idx key b = some r) (hc : r.relation_count ≠ 0) :
    ∃ idx', unregisterRelation idx b key = some idx'
      ∧ (∀ (k : ComponentKey) (a : Nat), ¬(k = key ∧ a = b) →
          idxLookup idx' k a = idxLookup idx k a)
      ∧ ((idxLookup idx' key b).isSome ↔ 0 < r.relation_count - 1)
      ∧ optCount (idxLookup idx' key b) = r.relation_count - 1 := by
  unfold idxLookup at hr
  rcases hb : alookup idx.components key with _ | bucket
  · rw [hb] at hr; cases hr
  · rw [hb] at hr
    simp only [Option.some_bind] at hr
    unfold unregisterRelation
    rw [hb]
    simp only [Option.some_bind]
    rw [hr]
    simp only [Option.some_bind]
    rw [if_neg hc]
    by_cases h1 : r.relation_count = 1
    · rw [if_pos h1]
      refine ⟨_, rfl, ?_, ?_, ?_⟩
      · intro k a hne
        unfold idxLookup
        simp only [alookup_aupdate]
        by_cases hk : k = key
        · subst hk
          rw [if_pos rfl, hb]
          simp only [Option.some_bind]
          rw [alookup_aerase]
          have ha : a ≠ b := fun hc2 => hne ⟨rfl, hc2⟩
          rw [if_neg ha]
        · rw [if_neg hk]
      · unfold idxLookup
        simp only [alookup_aupdate]
        rw [if_pos trivial]
        simp only [Option.some_bind]
        rw [alookup_aerase, if_pos rfl]
        simp [h1]
      · unfold idxLookup
        simp only [alookup_aupdate]
        rw [if_pos trivial]
        simp only [Option.some_bind]
        rw [alookup_aerase, if_pos rfl]
        simp [optCount, h1]
    · rw [if_neg h1]
      refine ⟨_, rfl, ?_, ?_, ?_⟩
      · intro k a hne
        unfold idxLookup
        simp only [alookup_aupdate]
        by_cases hk : k = key
        · subst hk
          rw [if_pos rfl, hb]
          simp only [Option.some_bind]
          rw [alookup_aupdate]
          have ha : a ≠ b := fun hc2 => hne ⟨rfl, hc2⟩
          rw [if_neg ha]
        · rw [if_neg hk]
      · unfold idxLookup
        simp only [alookup_aupdate]
        rw [if_pos trivial]
        simp only [Option.some_bind]
        rw [alookup_aupdate, if_pos rfl]
        simp only [Option.isSome_some, true_iff]
        omega
      · unfold idxLookup
        simp only [alookup_aupdate]
        rw [if_pos trivial]
        simp only [Option.some_bind]
        rw [alookup_aupdate, if_pos rfl]
        rfl

theorem directRemove_lookup (idx2 : ArchetypeIndex) (b : Nat) (key : ComponentKey)
    (bucket : List (Nat × ArchetypeRecord))
    (hb : alookup idx2.components key = some bucket) :
    (idxLookup (if (aerase bucket b).isEmpty then
        (⟨aerase idx2.components key⟩ : ArchetypeIndex)
      else ⟨aupdate idx2.components key (aerase bucket b)⟩) key b = none)
    ∧ (∀ (k : ComponentKey) (a : Nat), ¬(k = key ∧ a = b) →
        idxLookup (if (aerase bucket b).isEmpty then
            (⟨aerase idx2.components key⟩ : ArchetypeIndex)
          else ⟨aupdate idx2.components key (aerase bucket b)⟩) k a =
          idxLookup idx2 k a) := by
  by_cases he : (aerase bucket b).isEmpty = true
  · rw [if_pos he]
    constructor
    · unfold idxLookup
      simp only []
      rw [alookup_aerase, if_pos rfl]
      rfl
    · intro k a hne
      unfold idxLookup
      simp only []
      rw [alookup_aerase]
      by_cases hk : k = key
      · subst hk
        rw [if_pos rfl, hb]
        simp only [Option.some_bind, Option.none_bind]
        exact (aerase_isEmpty_lookup bucket b he a (fun hc => hne ⟨rfl, hc⟩)).symm
      · rw [if_neg hk]
  · rw [if_neg he]
    constructor
    · unfold idxLookup
      simp only [alookup_aupdate]
      rw [if_pos trivial]
      simp only [Option.some_bind]
      rw [alookup_aerase, if_pos rfl]
    · intro k a hne
      unfold idxLookup
      simp only [alookup_aupdate]
      by_cases hk : k = key
      · subst hk
        rw [if_pos rfl]
        simp only [Option.some_bind]
        rw [alookup_aerase, if_neg (fun hc : a = b => hne ⟨rfl, hc⟩), hb]
        simp only [Option.some_bind]
      · rw [if_neg hk]

theorem idxLookup_some_bucket (idx : ArchetypeIndex) (key : ComponentKey) (b : Nat)
    (r : ArchetypeRecord) (h : idxLookup idx key b = some r) :
    ∃ bucket, alookup idx.components key = some bucket ∧ alookup bucket b = some r := by
  unfold idxLookup at h
  rcases hb : alookup idx.components key with _ | bucket
  · rw [hb] at h; cases h
  · rw [hb] at h
    simp only [Option.some_bind] at h
    exact ⟨bucket, rfl, h⟩

theorem unregisterStep_spec (b : Nat) (key : ComponentKey) (ci : Nat)
    (suf : List (ComponentKey × Nat)) (idx : ArchetypeIndex)
    (hid : key.id ≠ dummy) (hobjc : key.object ≠ some dummy)
    (hnotmem : key ∉ suf.map Prod.fst)
    (h : RegState idx b ((key, ci) :: suf)) :
    ∃ idx3, unregisterStep b idx (key, ci) = some idx3
      ∧ (∀ (k : ComponentKey) (a : Nat), a ≠ b → idxLookup idx3 k a = idxLookup idx k a)
      ∧ RegState idx3 b suf := by
  obtain ⟨hnorm, hwobj, hwid, hjunk1, hjunk2⟩ := h
  rcases hro : key.object with _ | obj
  · -- non-relation: only the direct record is removed
    have hrel : key.is_relation = false := by simp [ComponentKey.is_relation, hro]
    have hsome : (idxLookup idx key b).isSome = true := by
      rw [(hnorm key hid hobjc).1]
      simp
    obtain ⟨r0, hr0⟩ := Option.isSome_iff_exists.mp hsome
    obtain ⟨bucket, hbk, -⟩ := idxLookup_some_bucket idx key b r0 hr0
    have hd := directRemove_lookup idx b key bucket hbk
    refine ⟨if (aerase bucket b).isEmpty then (⟨aerase idx.components key⟩ : ArchetypeIndex)
      else ⟨aupdate idx.components key (aerase bucket b)⟩, ?_, ?_, ?_⟩
    · unfold unregisterStep
      simp only [hrel, Bool.false_eq_true, if_false, Option.some_bind]
      rw [hbk]
      simp only [Option.some_bind]
      split_ifs <;> rfl
    · intro k a ha
      exact hd.2 k a (fun hc => ha hc.2)
    · refine ⟨?_, ?_, ?_, ?_, ?_⟩
      · intro k hkid hkobj
        by_cases hk : k = key
        · subst hk
          rw [hd.1]
          refine ⟨?_, fun r hr => Option.noConfusion hr⟩
          simp only [Option.isSome_none, Bool.false_eq_true, false_iff]
          exact hnotmem
        · rw [hd.2 k b (fun hc => hk hc.1)]
          have hn := hnorm k hkid hkobj
          refine ⟨?_, hn.2⟩
          rw [hn.1]
          simp [hk]
      · intro obj' hobj'
        have hne : (⟨dummy, some obj'⟩ : ComponentKey) ≠ key := by
          intro hc
          exact hid (congrArg ComponentKey.id hc).symm
        rw [hd.2 _ b (fun hc => hne hc.1)]
        have := hwobj obj' hobj'
        rwa [show ((key, ci) :: suf) = [(key, ci)] ++ suf from rfl, wcObj_append,
          wcObj_single_miss key ci obj'
            (by rw [hro]; exact fun hc => Option.noConfusion hc), Nat.zero_add] at this
      · intro i hi
        have hne : (⟨i, some dummy⟩ : ComponentKey) ≠ key := by
          intro hc
          have := congrArg ComponentKey.object hc
          rw [hro] at this
          exact Option.noConfusion this
        rw [hd.2 _ b (fun hc => hne hc.1)]
        have := hwid i hi
        rwa [show ((key, ci) :: suf) = [(key, ci)] ++ suf from rfl, wcId_append,
          wcId_single_miss_obj key ci i hro, Nat.zero_add] at this
      · have hne : (⟨dummy, some dummy⟩ : ComponentKey) ≠ key := by
          intro hc
          exact hid (congrArg ComponentKey.id hc).symm
        rw [hd.2 _ b (fun hc => hne hc.1)]
        exact hjunk1
      · have hne : (⟨dummy, none⟩ : ComponentKey) ≠ key := by
          intro hc
          exact hid (congrArg ComponentKey.id hc).symm
        rw [hd.2 _ b (fun hc => hne hc.1)]
        exact hjunk2
  · -- relation: two wildcard decrements, then the direct removal
    have hrel : key.is_relation = true := by simp [ComponentKey.is_relation, hro]
    have hobjc' : obj ≠ dummy := fun hc => hobjc (by rw [hro, hc])
    have hkw1 : key ≠ ⟨dummy, some obj⟩ := fun hc => hid (congrArg ComponentKey.id hc)
    have hkw2 : key ≠ ⟨key.id, some dummy⟩ := by
      intro hc
      have := congrArg ComponentKey.object hc
      rw [hro] at this
      exact hobjc' (Option.some.inj this)
    have hw12 : (⟨dummy, some obj⟩ : ComponentKey) ≠ ⟨key.id, some dummy⟩ := by
      intro hc
      exact hid (congrArg ComponentKey.id hc).symm
    -- first wildcard
    have hcobj := hwobj obj hobjc'
    rw [show ((key, ci) :: suf) = [(key, ci)] ++ suf from rfl, wcObj_append,
      wcObj_single_hit key ci obj hro] at hcobj
    have hs1 : (idxLookup idx ⟨dummy, some obj⟩ b).isSome = true := by
      rw [hcobj.1]; omega
    obtain ⟨r1, hr1⟩ := Option.isSome_iff_exists.mp hs1
    have hr1c : r1.relation_count = 1 + wcObj suf obj := by
      have := hcobj.2
      rw [hr1] at this
      exact this
    obtain ⟨idx1, hstep1, hframe1, hiso1, hcnt1⟩ :=
      unregisterRelation_some idx b ⟨dummy, some obj⟩ r1 hr1 (by omega)
    -- second wildcard
    have hcid := hwid key.id hid
    rw [show ((key, ci) :: suf) = [(key, ci)] ++ suf from rfl, wcId_append,
      wcId_single_hit key ci obj hro] at hcid
    have hw2idx1 : idxLookup idx1 ⟨key.id, some dummy⟩ b =
        idxLookup idx ⟨key.id, some dummy⟩ b :=
      hframe1 _ b (fun hc => hw12 hc.1.symm)
    have hs2 : (idxLookup idx1 ⟨key.id, some dummy⟩ b).isSome = true := by
      rw [hw2idx1, hcid.1]; omega
    obtain ⟨r2, hr2⟩ := Option.isSome_iff_exists.mp hs2
    have hr2c : r2.relation_count = 1 + wcId suf key.id := by
      have := hcid.2
      rw [← hw2idx1, hr2] at this
      exact this
    obtain ⟨idx2, hstep2, hframe2, hiso2, hcnt2⟩ :=
      unregisterRelation_some idx1 b ⟨key.id, some dummy⟩ r2 hr2 (by omega)
    -- direct record
    have hkeyidx2 : idxLookup idx2 key b = idxLookup idx key b := by
      rw [hframe2 key b (fun hc => hkw2 hc.1), hframe1 key b (fun hc => hkw1 hc.1)]
    have hsome : (idxLookup idx2 key b).isSome = true := by
      rw [hkeyidx2, (hnorm key hid hobjc).1]
      simp
    obtain ⟨r0, hr0⟩ := Option.isSome_iff_exists.mp hsome
    obtain ⟨bucket, hbk, -⟩ := idxLookup_some_bucket idx2 key b r0 hr0
    have hd := directRemove_lookup idx2 b key bucket hbk
    refine ⟨if (aerase bucket b).isEmpty then (⟨aerase idx2.components key⟩ : ArchetypeIndex)
      else ⟨aupdate idx2.components key (aerase bucket b)⟩, ?_, ?_, ?_⟩
    · unfold unregisterStep
      simp only [hrel, if_true, hro]
      rw [hstep1]
      simp only [Option.some_bind]
      rw [hstep2]
      simp only [Option.some_bind]
      rw [hbk]
      simp only [Option.some_bind]
      split_ifs <;> rfl
    · intro k a ha
      rw [hd.2 k a (fun hc => ha hc.2), hframe2 k a (fun hc => ha hc.2),
        hframe1 k a (fun hc => ha hc.2)]
    · -- RegState of the suffix
      have hlw1 : idxLookup (if (aerase bucket b).isEmpty then
          (⟨aerase idx2.components key⟩ : ArchetypeIndex)
        else ⟨aupdate idx2.components key (aerase bucket b)⟩) ⟨dummy, some obj⟩ b =
          idxLookup idx1 ⟨dummy, some obj⟩ b := by
        rw [hd.2 _ b (fun hc => hkw1 hc.1.symm), hframe2 _ b (fun hc => hw12 hc.1)]
      have hlw2 : idxLookup (if (aerase bucket b).isEmpty then
          (⟨aerase idx2.components key⟩ : ArchetypeIndex)
        else ⟨aupdate idx2.components key (aerase bucket b)⟩) ⟨key.id, some dummy⟩ b =
          idxLookup idx2 ⟨key.id, some dummy⟩ b :=
        hd.2 _ b (fun hc => hkw2 hc.1.symm)
      have hlother : ∀ k : ComponentKey, k ≠ key → k ≠ ⟨dummy, some obj⟩ →
          k ≠ ⟨key.id, some dummy⟩ →
          idxLookup (if (aerase bucket b).isEmpty then
            (⟨aerase idx2.components key⟩ : ArchetypeIndex)
          else ⟨aupdate idx2.components key (aerase bucket b)⟩) k b = idxLookup idx k b := by
        intro k h1 h2 h3
        rw [hd.2 k b (fun hc => h1 hc.1), hframe2 k b (fun hc => h3 hc.1),
          hframe1 k b (fun hc => h2 hc.1)]
      refine ⟨?_, ?_, ?_, ?_, ?_⟩
      · intro k hkid hkobj
        by_cases hk : k = key
        · subst hk
          rw [hd.1]
          refine ⟨?_, fun r hr => Option.noConfusion hr⟩
          simp only [Option.isSome_none, Bool.false_eq_true, false_iff]
          exact hnotmem
        · rw [hlother k hk (fun hc => hkid (congrArg ComponentKey.id hc))
            (fun hc => hkobj (congrArg ComponentKey.object hc))]
          have hn := hnorm k hkid hkobj
          refine ⟨?_, hn.2⟩
          rw [hn.1]
          simp [hk]
      · intro obj' hobj'
        by_cases ho : obj' = obj
        · subst ho
          rw [hlw1]
          constructor
          · rw [hiso1, hr1c]
            omega
          · rw [hcnt1, hr1c]
            omega
        · rw [hlother _ (fun hc => hid (congrArg ComponentKey.id hc).symm)
            (fun hc => ho (Option.some.inj (congrArg ComponentKey.object hc)))
            (fun hc => hid (congrArg ComponentKey.id hc).symm)]
          have := hwobj obj' hobj'
          rwa [show ((key, ci) :: suf) = [(key, ci)] ++ suf from rfl, wcObj_append,
            wcObj_single_miss key ci obj'
              (by rw [hro]; exact fun hc => ho (Option.some.inj hc).symm),
            Nat.zero_add] at this
      · intro i hi
        by_cases hi' : i = key.id
        · subst hi'
          rw [hlw2]
          constructor
          · rw [hiso2, hr2c]
            omega
          · rw [hcnt2, hr2c]
            omega
        · rw [hlother _ ?_ (fun hc => hi (congrArg ComponentKey.id hc))
            (fun hc => hi' (congrArg ComponentKey.id hc))]
          · have := hwid i hi
            rwa [show ((key, ci) :: suf) = [(key, ci)] ++ suf from rfl, wcId_append,
              wcId_single_miss_id key ci i (fun hc => hi' hc.symm), Nat.zero_add] at this
          · intro hc
            have := congrArg ComponentKey.object hc
            rw [hro] at this
            exact hobjc' (Option.some.inj this).symm
      · rw [hlother _ (fun hc => hid (congrArg ComponentKey.id hc).symm)
          (fun hc => hobjc' (Option.some.inj (congrArg ComponentKey.object hc)).symm)
          (fun hc => hid (congrArg ComponentKey.id hc).symm)]
        exact hjunk1
      · rw [hlother _ (fun hc => hid (congrArg ComponentKey.id hc).symm)
          (fun hc => Option.noConfusion (congrArg ComponentKey.object hc))
          (fun hc => hid (congrArg ComponentKey.id hc).symm)]
        exact hjunk2

theorem unregister_state (b : Nat) (comps : List (ComponentKey × Nat)) :
    ∀ idx : ArchetypeIndex,
      CleanComps comps → (comps.map Prod.fst).Nodup →
      RegState idx b comps →
      ∃ idx', ArchetypeIndex.unregister idx b comps = some idx'
        ∧ (∀ (k : ComponentKey) (a : Nat), a ≠ b → idxLookup idx' k a = idxLookup idx k a)
        ∧ (∀ k, idxLookup idx' k b = none) := by
  induction comps with
  | nil =>
    intro idx _ _ h
    exact ⟨idx, rfl, fun k a _ => rfl, allNone_of_regState_nil idx b h⟩
  | cons p rest ih =>
    intro idx hclean hnd h
    obtain ⟨key, ci⟩ := p
    have hk := hclean (key, ci) (List.mem_cons_self _ _)
    have hnd0 : (key :: rest.map Prod.fst).Nodup := by simpa using hnd
    have hnd' := List.nodup_cons.mp hnd0
    obtain ⟨idx3, hstep, hframe3, hstate3⟩ :=
      unregisterStep_spec b key ci rest idx hk.1 hk.2 hnd'.1 h
    have hrest : CleanComps rest := fun q hq => hclean q (List.mem_cons_of_mem _ hq)
    obtain ⟨idx', hrun, hframe', hnone⟩ := ih idx3 hrest hnd'.2 hstate3
    refine ⟨idx', ?_, ?_, hnone⟩
    · rw [show ArchetypeIndex.unregister idx b ((key, ci) :: rest) =
          (unregisterStep b idx (key, ci)).bind
            (fun x => ArchetypeIndex.unregister x b rest) from rfl]
      rw [hstep]
      simp only [Option.some_bind]
      exact hrun
    · intro k a ha
      rw [hframe' k a ha, hframe3 k a ha]

theorem regState_congr (idx idx' : ArchetypeIndex) (b : Nat)
    (l : List (ComponentKey × Nat))
    (h : ∀ k, idxLookup idx' k b = idxLookup idx k b) (hs : RegState idx b l) :
    RegState idx' b l := by
  obtain ⟨hn, ho, hi, hj1, hj2⟩ := hs
  refine ⟨?_, ?_, ?_, ?_, ?_⟩
  · intro k hkid hkobj
    rw [h k]
    exact hn k hkid hkobj
  · intro obj hobj
    rw [h _]
    exact ho obj hobj
  · intro i hi'
    rw [h _]
    exact hi i hi'
  · rw [h _]; exact hj1
  · rw [h _]; exact hj2

/-! ## The index invariant over operation sequences -/

theorem applyOps_inv (A : Nat → List (ComponentKey × Nat)) (ops : List IndexOp) :
    ∀ (idx0 : ArchetypeIndex) (S0 : List Nat),
      (∀ a, CleanComps (A a)) → (∀ a, ((A a).map Prod.fst).Nodup) →
      ValidOps S0 ops → S0.Nodup →
      (∀ a, (a ∈ S0 → RegState idx0 a (A a)) ∧
        (a ∉ S0 → ∀ k, idxLookup idx0 k a = none)) →
      ∀ idx S, applyOps A (idx0, S0) ops = some (idx, S) →
        ∀ a, (a ∈ S → RegState idx a (A a)) ∧
          (a ∉ S → ∀ k, idxLookup idx k a = none) := by
  induction ops with
  | nil =>
    intro idx0 S0 _ _ _ _ hinv idx S happ
    have h2 := Option.some.inj happ
    have hi : idx0 = idx := congrArg Prod.fst h2
    have hs : S0 = S := congrArg Prod.snd h2
    subst hi; subst hs
    exact hinv
  | cons op rest ih =>
    intro idx0 S0 hclean hnd hvalid hnds0 hinv idx S happ
    cases op with
    | reg a =>
      obtain ⟨hnotin, hvrest⟩ := hvalid
      have happ' : applyOps A (ArchetypeIndex.register idx0 a (A a), a :: S0) rest =
          some (idx, S) := happ
      refine ih (ArchetypeIndex.register idx0 a (A a)) (a :: S0) hclean hnd hvrest
        (List.nodup_cons.mpr ⟨hnotin, hnds0⟩) ?_ idx S happ'
      intro b
      by_cases hba : b = a
      · subst hba
        constructor
        · intro _
          have h0 := regState_of_allNone idx0 b ((hinv b).2 hnotin)
          simpa using register_state b (A b) [] idx0 (hclean b) h0
        · intro hb
          exact absurd (List.mem_cons_self b S0) hb
      · constructor
        · intro hb
          have hbS0 : b ∈ S0 := by
            rcases List.mem_cons.mp hb with hc | hc
            · exact absurd hc hba
            · exact hc
          exact regState_congr idx0 _ b (A b)
            (fun k => register_frame a (A a) idx0 k b hba) ((hinv b).1 hbS0)
        · intro hb k
          have hbS0 : b ∉ S0 := fun hc => hb (List.mem_cons_of_mem _ hc)
          rw [register_frame a (A a) idx0 k b hba]
          exact (hinv b).2 hbS0 k
    | unreg a =>
      obtain ⟨hin, hvrest⟩ := hvalid
      have hreg := (hinv a).1 hin
      obtain ⟨idx1, hrun, hframe, hnone⟩ :=
        unregister_state a (A a) idx0 (hclean a) (hnd a) hreg
      have hstep : applyOp A (idx0, S0) (.unreg a) = some (idx1, S0.erase a) := by
        show (match ArchetypeIndex.unregister idx0 a (A a) with
          | some i => some (i, S0.erase a)
          | none => none) = some (idx1, S0.erase a)
        rw [hrun]
      have happ' : applyOps A (idx1, S0.erase a) rest = some (idx, S) := by
        have hexp : applyOps A (idx0, S0) (.unreg a :: rest) =
            (applyOp A (idx0, S0) (.unreg a)).bind (fun st => applyOps A st rest) := rfl
        rw [hexp, hstep] at happ
        simpa using happ
      refine ih idx1 (S0.erase a) hclean hnd hvrest (hnds0.erase a) ?_ idx S happ'
      intro b
      by_cases hba : b = a
      · subst hba
        constructor
        · intro hb
          exact absurd ((List.Nodup.mem_erase_iff hnds0).mp hb).1 (by simp)
        · intro _ k
          exact hnone k
      · constructor
        · intro hb
          have hbS0 : b ∈ S0 := (List.mem_erase_of_ne hba).mp hb
          exact regState_congr idx0 idx1 b (A b)
            (fun k => hframe k b hba) ((hinv b).1 hbS0)
        · intro hb k
          have hbS0 : b ∉ S0 := fun hc => hb ((List.mem_erase_of_ne hba).mpr hc)
          rw [hframe k b hba]
          exact (hinv b).2 hbS0 k

/-! ## Claim theorem: the archetype index invariant -/

/-- C7: after any valid sequence of `register`/`unregister` calls (each
unregister matching a prior register) over archetypes with clean, duplicate
free component keys, a direct entry `(key, archetype)` exists in the index
iff the archetype is registered and its components contain the key; for
each registered relation key `(id, Some obj)` with `obj ≠ dummy` both
wildcard entries exist with `relation_count ≥ 1`; and a wildcard entry is
present exactly while its backer count is positive (it is removed exactly
when the count reaches zero).  Unregistered archetypes have no entries at
all. -/
theorem archetype_index_invariant (A : Nat → List (ComponentKey × Nat))
    (ops : List IndexOp) (idx : ArchetypeIndex) (S : List Nat)
    (hclean : ∀ a, CleanComps (A a)) (hnd : ∀ a, ((A a).map Prod.fst).Nodup)
    (hvalid : ValidOps [] ops)
    (happ : applyOps A (⟨[]⟩, []) ops = some (idx, S)) :
    ∀ a, (a ∈ S →
        (∀ k : ComponentKey, k.id ≠ dummy → k.object ≠ some dummy →
          ((idxLookup idx k a).isSome ↔ k ∈ (A a).map Prod.fst))
        ∧ (∀ id obj : Nat, obj ≠ dummy →
            (⟨id, some obj⟩ : ComponentKey) ∈ (A a).map Prod.fst →
            (∃ r, idxLookup idx ⟨dummy, some obj⟩ a = some r ∧ 1 ≤ r.relation_count)
            ∧ (∃ r, idxLookup idx ⟨id, some dummy⟩ a = some r ∧ 1 ≤ r.relation_count))
        ∧ (∀ obj : Nat, obj ≠ dummy →
            ((idxLookup idx ⟨dummy, some obj⟩ a).isSome ↔ 0 < wcObj (A a) obj))
        ∧ (∀ i : Nat, i ≠ dummy →
            ((idxLookup idx ⟨i, some dummy⟩ a).isSome ↔ 0 < wcId (A a) i)))
      ∧ (a ∉ S → ∀ k, idxLookup idx k a = none) := by
  have hinit : ∀ a, (a ∈ ([] : List Nat) → RegState (⟨[]⟩ : ArchetypeIndex) a (A a)) ∧
      (a ∉ ([] : List Nat) → ∀ k, idxLookup ⟨[]⟩ k a = none) := by
    intro a
    exact ⟨fun h => absurd h (List.not_mem_nil a), fun _ k => rfl⟩
  have hmain := applyOps_inv A ops ⟨[]⟩ [] hclean hnd hvalid List.nodup_nil hinit idx S happ
  intro a
  refine ⟨?_, (hmain a).2⟩
  intro hS
  obtain ⟨hnorm, hwobj, hwid, hj1, hj2⟩ := (hmain a).1 hS
  refine ⟨fun k hkid hkobj => (hnorm k hkid hkobj).1, ?_, ?_, ?_⟩
  · intro id obj hobj hmem
    have hidne : id ≠ dummy := by
      rcases List.mem_map.mp hmem with ⟨p, hp, hpk⟩
      have := (hclean a p hp).1
      rw [hpk] at this
      exact this
    have h1 := hwobj obj hobj
    have h2 := hwid id hidne
    have hobjpos : 0 < wcObj (A a) obj := by
      rcases List.mem_map.mp hmem with ⟨p, hp, hpk⟩
      have : p ∈ (A a).filter (fun q => q.1.object == some obj) := by
        refine List.mem_filter.mpr ⟨hp, ?_⟩
        rw [hpk]
        simp
      unfold wcObj
      exact List.length_pos.mpr (fun hc => by simp [hc] at this)
    have hidpos : 0 < wcId (A a) id := by
      rcases List.mem_map.mp hmem with ⟨p, hp, hpk⟩
      have : p ∈ (A a).filter (fun q => q.1.id == id && q.1.object.isSome) := by
        refine List.mem_filter.mpr ⟨hp, ?_⟩
        rw [hpk]
        simp
      unfold wcId
      exact List.length_pos.mpr (fun hc => by simp [hc] at this)
    constructor
    · obtain ⟨r, hr⟩ := Option.isSome_iff_exists.mp (h1.1.mpr hobjpos)
      refine ⟨r, hr, ?_⟩
      have := h1.2
      rw [hr] at this
      simp only [optCount] at this
      omega
    · obtain ⟨r, hr⟩ := Option.isSome_iff_exists.mp (h2.1.mpr hidpos)
      refine ⟨r, hr, ?_⟩
      have := h2.2
      rw [hr] at this
      simp only [optCount] at this
      omega
  · intro obj hobj
    exact (hwobj obj hobj).1
  · intro i hi
    exact (hwid i hi).1

/-- A convenient witness for C7: registering one archetype with a single
relation component creates its object wildcard record. -/
theorem archetype_index_invariant_witness :
    (idxLookup ⟨[(⟨1, some 2⟩, [(5, ⟨0, 0⟩)]), (⟨1, some 0⟩, [(5, ⟨0, 1⟩)]),
        (⟨0, some 2⟩, [(5, ⟨0, 1⟩)])]⟩ ⟨0, some 2⟩ 5).isSome = true := by
  have h := archetype_index_invariant
    (fun a => if a = 5 then [(⟨1, some 2⟩, 0)] else []) [IndexOp.reg 5]
    ⟨[(⟨1, some 2⟩, [(5, ⟨0, 0⟩)]), (⟨1, some 0⟩, [(5, ⟨0, 1⟩)]),
      (⟨0, some 2⟩, [(5, ⟨0, 1⟩)])]⟩ [5]
    (by
      intro a p hp
      have hp' : p ∈ (if a = 5 then [((⟨1, some 2⟩ : ComponentKey), 0)] else []) := hp
      by_cases hx : a = 5
      · rw [if_pos hx] at hp'
        simp at hp'
        subst hp'
        exact ⟨by decide, by decide⟩
      · rw [if_neg hx] at hp'
        simp at hp')
    (by
      intro a
      by_cases hx : a = 5
      · subst hx; decide
      · show (List.map Prod.fst (if a = 5 then [((⟨1, some 2⟩ : ComponentKey), 0)]
          else [])).Nodup
        rw [if_neg hx]
        decide)
    (by exact ⟨by simp, trivial⟩)
    (by rfl)
  exact (((h 5).1 (by simp)).2.2.1 2 (by decide)).mpr (by decide)

end Flax
